import Mathlib

/-!
Verification of the Huffman-coding core of the ringli repository
(`encode/huffman_tree.h`).

The repository ships only the header: the `HuffmanTree` node struct and the
inline comparator `SortHuffmanTree` are real code and are embedded directly;
the bodies of `CreateHuffmanTree`, `WriteHuffmanTree` and
`ConvertBitDepthsToSymbols` are not part of the available sources, so those
operations are modelled from the specification document, as indicated in the
doc comment of each such definition.
-/

namespace ringli

/-- A node of a Huffman tree, from `encode/huffman_tree.h`.  `total_count` is
a `uint32_t` population count (embedded as `Nat`); the two index fields are
`int16_t` arena indices. -/
structure HuffmanTree where
  total_count : Nat
  index_left : Int
  index_right_or_value : Int
deriving DecidableEq, Repr

/-- Comparator from `encode/huffman_tree.h`: sort the root nodes, least
popular first.  Direct embedding of
`return v0.total_count < v1.total_count;`. -/
def SortHuffmanTree (v0 v1 : HuffmanTree) : Bool :=
  v0.total_count < v1.total_count

/-- Modelled from the spec: a tree node is either a leaf carrying a symbol
index, or an internal node with exactly two children (§3, Node).  The body of
the tree builder is missing from the sources; weights are carried beside the
trees in the merge queue. -/
inductive HTree where
  | leaf (sym : Nat)
  | node (l r : HTree)
deriving DecidableEq, Repr

/-- The list of leaf symbols of a tree, left to right. -/
def HTree.leavesL : HTree → List Nat
  | .leaf s => [s]
  | .node l r => l.leavesL ++ r.leavesL

/-- Modelled from the spec: depth assignment by walking the tree from the
root, each step into a child incrementing the depth by one (§4.2).  The body
of `SetDepth` is missing from the sources.  Returns (symbol, depth) pairs in
leaf order. -/
def SetDepth : HTree → Nat → List (Nat × Nat)
  | .leaf s, level => [(s, level)]
  | .node l r, level => SetDepth l (level + 1) ++ SetDepth r (level + 1)

/-- Modelled from the spec: extract the lowest-weight node from the merge
queue; on weight ties, prefer the node inserted earlier (§4.1, §9).  Returns
the extracted node and the remaining queue in order. -/
def extractMin : List (Nat × HTree) → Option ((Nat × HTree) × List (Nat × HTree))
  | [] => none
  | x :: xs =>
    match extractMin xs with
    | none => some (x, [])
    | some (y, rest) => if x.1 ≤ y.1 then some (x, xs) else some (y, x :: rest)

/-- Modelled from the spec: the greedy merge loop (§4.1).  Repeatedly extract
the two lowest-weight nodes, merge them into a new internal node appended at
the end of the queue (later insertion order), until one root remains.  Also
records the merge trace as (weight1, weight2, sum) triples.  Runs on
explicit fuel; `fuel = queue length` suffices. -/
def buildLoop : Nat → List (Nat × HTree) → List (Nat × Nat × Nat) →
    Option ((Nat × HTree) × List (Nat × Nat × Nat))
  | 0, _, _ => none
  | fuel + 1, q, tr =>
    match extractMin q with
    | none => none
    | some (x, q1) =>
      match extractMin q1 with
      | none => some (x, tr)
      | some (y, q2) =>
        buildLoop fuel (q2 ++ [(x.1 + y.1, HTree.node x.2 y.2)])
          (tr ++ [(x.1, y.1, x.1 + y.1)])

/-- Indices of used (nonzero-weight) symbols, in increasing order. -/
def usedIdx (data : List Nat) : List Nat :=
  (List.range data.length).filter (fun i => data.getD i 0 != 0)

/-- Association-list lookup with default 0: the value of the first pair whose
key matches, or 0 when no pair matches. -/
def lookupD : List (Nat × Nat) → Nat → Nat
  | [], _ => 0
  | (k, v) :: rest, i => if k = i then v else lookupD rest i

/-- Maximum of a list of naturals (0 for the empty list). -/
def maxD (l : List Nat) : Nat := l.foldr max 0

/-- Minimum of a nonempty list of naturals (its maximum is used as the seed,
so the result is the least element whenever the list is nonempty). -/
def minD (l : List Nat) : Nat := l.foldr min (maxD l)

/-- Index of the first element satisfying the predicate, if any. -/
def firstIdxWith (p : Nat → Bool) : List Nat → Option Nat
  | [] => none
  | d :: rest => if p d then some 0 else (firstIdxWith p rest).map (· + 1)

/-- Modelled from the spec: one correction step of the depth limiter (§4.2).
The spec's prose ("locate the deepest leaf whose depth exceeds the limit;
promote it; find the shallowest depth level below the limit that is not yet
full relative to the Kraft budget, moving one unit of code-length budget
there, and correspondingly pushing one symbol down into the freed slot")
is realized as the standard Kraft-preserving rebalancing: the first deepest
leaf is promoted one level, a leaf at the shallowest present level `j < L`
moves down to `j + 1`, and a second deepest leaf moves into the slot freed
next to it at `j + 1`. -/
def limitStep (L : Nat) (ds : List Nat) : List Nat :=
  let M := maxD ds
  match firstIdxWith (fun d => d == M) ds with
  | none => ds
  | some i1 =>
    match firstIdxWith (fun d => d == M) (ds.drop (i1 + 1)) with
    | none => ds
    | some i2off =>
      let i2 := i1 + 1 + i2off
      let j := minD ds
      if L ≤ j then ds
      else
        match firstIdxWith (fun d => d == j) ds with
        | none => ds
        | some i3 =>
          ((ds.set i1 (M - 1)).set i2 (j + 1)).set i3 (j + 1)

/-- Modelled from the spec: the depth-limiting correction pass (§4.2),
iterating `limitStep` until no depth exceeds the limit, on explicit fuel
(the sum of the depths suffices). -/
def limitLoop : Nat → Nat → List Nat → List Nat
  | 0, _, ds => ds
  | fuel + 1, L, ds => if maxD ds ≤ L then ds else limitLoop fuel L (limitStep L ds)

/-- Error taxonomy of the spec (§7). -/
inductive HuffErr where
  | capacityExceeded
  | invalidConfiguration
deriving DecidableEq, Repr

/-- Modelled from the spec: `CreateHuffmanTree` (§4.1, §4.2, §7); its body is
missing from the sources, which declare only
`void CreateHuffmanTree(const uint32_t* data, const size_t length, const int tree_limit, uint8_t* depth)`.
Checks the arena capacity (2·n−1 nodes must fit the signed 16-bit index
range) before any merge, then the configuration (`tree_limit` must be
positive and admit a prefix code over the used symbols), handles the
degenerate zero- and one-symbol alphabets, and otherwise builds the greedy
Huffman tree over the nonzero-weight symbols and applies the depth limiter.
Returns the per-symbol depth table. -/
def CreateHuffmanTree (data : List Nat) (tree_limit : Nat) :
    Except HuffErr (List Nat) :=
  let n := data.length
  if 32767 < 2 * n - 1 then .error .capacityExceeded
  else
    let used := usedIdx data
    let k := used.length
    if tree_limit = 0 ∨ 2 ^ tree_limit < k then .error .invalidConfiguration
    else if k = 0 then .ok (List.replicate n 0)
    else if k = 1 then
      .ok ((List.range n).map (fun i => lookupD (used.map (fun s => (s, 1))) i))
    else
      let leaves := used.map (fun s => (data.getD s 0, HTree.leaf s))
      match buildLoop k leaves [] with
      | none => .error .invalidConfiguration
      | some ((_, t), _) =>
        let pairs := SetDepth t 0
        let S := pairs.map Prod.fst
        let D := pairs.map Prod.snd
        let Dfin := if maxD D ≤ tree_limit then D else limitLoop D.sum tree_limit D
        .ok ((List.range n).map (fun i => lookupD (S.zip Dfin) i))

/-- The merge trace of the tree builder on the given weights: the list of
(weight1, weight2, merged weight) triples, in merge order, or `none` on the
degenerate alphabets where no merge happens. -/
def HuffmanMergeTrace (data : List Nat) : Option (List (Nat × Nat × Nat)) :=
  let used := usedIdx data
  let k := used.length
  if k ≤ 1 then none
  else
    let leaves := used.map (fun s => (data.getD s 0, HTree.leaf s))
    (buildLoop k leaves []).map (·.2)

/-- Used symbols carrying the given depth, in increasing symbol order. -/
def symbolsAtDepth (depth : List Nat) (d : Nat) : List Nat :=
  (List.range depth.length).filter (fun i => depth.getD i 0 == d)

/-- Used symbols ordered by (ascending depth, ascending symbol index), each
paired with its depth: the canonical ordering of §4.3. -/
def canonicalSeq (depth : List Nat) : List (Nat × Nat) :=
  ((List.range (maxD depth)).map
    (fun d => (symbolsAtDepth depth (d + 1)).map (fun s => (s, d + 1)))).flatten

/-- Modelled from the spec: the canonical code recurrence of §4.3 — each
subsequent symbol's code is (previous code + 1) shifted left by (current
depth − previous depth).  Produces (symbol, depth, code) triples. -/
def assignCodes : Nat → Nat → List (Nat × Nat) → List (Nat × Nat × Nat)
  | _, _, [] => []
  | prevCode, prevDepth, (s, d) :: rest =>
    let c := (prevCode + 1) * 2 ^ (d - prevDepth)
    (s, d, c) :: assignCodes c d rest

/-- The canonical code table as (symbol, depth, code) triples in canonical
order: the first symbol receives code 0, the rest follow the §4.3
recurrence. -/
def huffmanCodeEntries (depth : List Nat) : List (Nat × Nat × Nat) :=
  match canonicalSeq depth with
  | [] => []
  | (s, d) :: rest => (s, d, 0) :: assignCodes 0 d rest

/-- Modelled from the spec: `ConvertBitDepthsToSymbols` (§4.3); its body is
missing from the sources, which declare only
`void ConvertBitDepthsToSymbols(const uint8_t* depth, size_t len, uint16_t* bits)`.
Returns the per-symbol code table; unused symbols receive 0. -/
def ConvertBitDepthsToSymbols (depth : List Nat) : List Nat :=
  (List.range depth.length).map
    (fun i => lookupD ((huffmanCodeEntries depth).map (fun e => (e.1, e.2.2))) i)

/-- Number of leading elements equal to `v`. -/
def countLeading (v : Nat) : List Nat → Nat
  | [] => 0
  | d :: rest => if d = v then countLeading v rest + 1 else 0

/-- Structural worker for `emitZeroRun`: `fuel ≥ r` suffices. -/
def emitZeroRunF : Nat → Nat → List (Nat × Nat)
  | 0, _ => []
  | fuel + 1, r =>
    if r = 0 then []
    else if r < 3 then List.replicate r (0, 0)
    else if r ≤ 10 then [(17, r - 3)]
    else if r ≤ 138 then [(18, r - 11)]
    else (18, 127) :: emitZeroRunF fuel (r - 138)

/-- Modelled from the spec: tokens for a run of `r` zero depths (§4.4).
Runs of 1 or 2 are literal zeros; 3–10 a short repeat-zero token (token 17,
3 extra bits); 11–138 a long repeat-zero token (token 18, 7 extra bits);
longer runs are chunked.  Each token is paired with its extra-bits value. -/
def emitZeroRun (r : Nat) : List (Nat × Nat) :=
  emitZeroRunF r r

/-- Structural worker for `emitRepRun`: `fuel ≥ r` suffices. -/
def emitRepRunF (d : Nat) : Nat → Nat → List (Nat × Nat)
  | 0, _ => []
  | fuel + 1, r =>
    if r = 0 then []
    else if r < 3 then List.replicate r (d, 0)
    else if r ≤ 6 then [(16, r - 3)]
    else (16, 3) :: emitRepRunF d fuel (r - 6)

/-- Modelled from the spec: tokens for `r` further copies of the nonzero
depth `d`, following its literal (§4.4).  Runs of 1 or 2 are literals; 3–6 a
repeat-previous token (token 16, 2 extra bits); longer runs are chunked. -/
def emitRepRun (d : Nat) (r : Nat) : List (Nat × Nat) :=
  emitRepRunF d r r

/-- Structural worker for `WriteHuffmanTree`: `fuel ≥ length` suffices. -/
def writeHTF : Nat → List Nat → List (Nat × Nat)
  | 0, _ => []
  | _, [] => []
  | fuel + 1, d :: rest =>
    let r := countLeading d rest
    if d = 0 then emitZeroRun (r + 1) ++ writeHTF fuel (rest.drop r)
    else ((d, 0) :: emitRepRun d r) ++ writeHTF fuel (rest.drop r)

/-- Modelled from the spec: `WriteHuffmanTree` (§4.4); its body is missing
from the sources, which declare only
`void WriteHuffmanTree(const uint8_t* depth, size_t num, size_t* tree_size, uint8_t* tree, uint8_t* extra_bits_data)`.
Scans the depth table in symbol order and emits (token, extra-bits) pairs:
literal depths 0–15, and the three run-length tokens of §4.4.  The token
count reported through `tree_size` is the length of the returned list. -/
def WriteHuffmanTree (depth : List Nat) : List (Nat × Nat) :=
  writeHTF depth.length depth

/-- Modelled from the spec: the matching decoder of §4.4's contract — tokens
0–15 are literal depths, token 16 repeats the previously emitted depth
(3 + extra) times, token 17 emits (3 + extra) zeros, token 18 emits
(11 + extra) zeros. -/
def DecodeHuffmanTree : List (Nat × Nat) → Nat → List Nat
  | [], _ => []
  | (t, e) :: rest, prev =>
    if t ≤ 15 then t :: DecodeHuffmanTree rest t
    else if t = 16 then List.replicate (e + 3) prev ++ DecodeHuffmanTree rest prev
    else if t = 17 then List.replicate (e + 3) 0 ++ DecodeHuffmanTree rest 0
    else List.replicate (e + 11) 0 ++ DecodeHuffmanTree rest 0

/-- Code (c1, of bit length d1) is a prefix of code (c2, of bit length d2):
d1 ≤ d2 and dropping the last d2 − d1 bits of c2 yields c1. -/
def IsPrefixOf (d1 c1 d2 c2 : Nat) : Prop :=
  d1 ≤ d2 ∧ c2 / 2 ^ (d2 - d1) = c1

/-- The Kraft sum Σ 2^(−depth) over the used symbols of a depth table, as a
rational number. -/
def kraftSum (data depth : List Nat) : ℚ :=
  ((usedIdx data).map (fun i => (2 : ℚ) ^ (-(depth.getD i 0 : ℤ)))).sum

/-- Weighted total code length Σ weight(i) · depth(i) of a depth table. -/
def weightedLength (data depth : List Nat) : Nat :=
  ((usedIdx data).map (fun i => data.getD i 0 * depth.getD i 0)).sum

/-- The Kraft sum of a plain list of depths, as a rational number. -/
def kraftL (ds : List Nat) : ℚ :=
  (ds.map (fun d : Nat => (2 : ℚ) ^ (-(d : ℤ)))).sum

/-- The Kraft sum of a list of depths scaled by 2^M: Σ 2^(M − d), in ℕ.
Faithful bookkeeping requires every depth to be at most M. -/
def natKraft (M : Nat) (ds : List Nat) : Nat :=
  (ds.map (fun d => 2 ^ (M - d))).sum

/-- Total excess of a depth list over the limit L: Σ max(d − L, 0), the
termination measure of the depth limiter. -/
def measureL (L : Nat) (ds : List Nat) : Nat :=
  (ds.map (fun d => d - L)).sum

/-- All leaf symbols of the trees in a merge queue. -/
def leavesOfQ (q : List (Nat × HTree)) : List Nat :=
  (q.map (fun x => x.2.leavesL)).flatten

/-! ### Basic lemmas about the helper functions -/

theorem getD_map_range (f : Nat → Nat) (n i : Nat) (h : i < n) :
    ((List.range n).map f).getD i 0 = f i := by
  rw [List.getD_eq_getElem ((List.range n).map f) 0 (by simpa using h)]
  simp

theorem le_maxD_of_mem {l : List Nat} {x : Nat} (h : x ∈ l) : x ≤ maxD l := by
  induction l with
  | nil => cases h
  | cons a t ih =>
    rcases List.mem_cons.mp h with rfl | hm
    · exact Nat.le_max_left _ _
    · exact le_trans (ih hm) (Nat.le_max_right _ _)

theorem maxD_le {l : List Nat} {b : Nat} (h : ∀ x ∈ l, x ≤ b) : maxD l ≤ b := by
  induction l with
  | nil => exact Nat.zero_le b
  | cons a t ih =>
    exact max_le (h a (List.mem_cons_self a t)) (ih fun x hx => h x (List.mem_cons_of_mem a hx))

theorem mem_usedIdx {data : List Nat} {i : Nat} :
    i ∈ usedIdx data ↔ i < data.length ∧ data.getD i 0 ≠ 0 := by
  unfold usedIdx
  rw [List.mem_filter, List.mem_range]
  simp

theorem filter_range_eq_singleton {s n : Nat} (h : s < n) :
    (List.range n).filter (fun i => s == i) = [s] := by
  induction n with
  | zero => omega
  | succ m ih =>
    rw [List.range_succ, List.filter_append]
    by_cases hs : s = m
    · subst hs
      have : (List.range s).filter (fun i => s == i) = [] := by
        rw [List.filter_eq_nil_iff]
        intro a ha
        have : a < s := List.mem_range.mp ha
        simp
        omega
      simp [this]
    · have hlt : s < m := by omega
      rw [ih hlt]
      have : ((m : Nat) :: []).filter (fun i => s == i) = [] := by
        simp
        omega
      simp [this]

/-! ### Lemmas about `extractMin` -/

theorem extractMin_eq_none {q : List (Nat × HTree)} : extractMin q = none ↔ q = [] := by
  cases q with
  | nil => simp [extractMin]
  | cons x xs =>
    constructor
    · intro h
      unfold extractMin at h
      rcases hxs : extractMin xs with _ | p
      · rw [hxs] at h; cases h
      · rw [hxs] at h
        dsimp only at h
        split at h <;> cases h
    · intro h; cases h

theorem extractMin_min {q : List (Nat × HTree)} {m : Nat × HTree}
    {rest : List (Nat × HTree)} (h : extractMin q = some (m, rest)) :
    ∀ y ∈ q, m.1 ≤ y.1 := by
  induction q generalizing m rest with
  | nil => cases h
  | cons x xs ih =>
    unfold extractMin at h
    rcases hxs : extractMin xs with _ | p
    · rw [hxs] at h
      have hnil : xs = [] := extractMin_eq_none.mp hxs
      cases h
      intro y hy
      rcases List.mem_cons.mp hy with rfl | hm
      · exact le_refl _
      · rw [hnil] at hm; cases hm
    · rw [hxs] at h
      obtain ⟨y0, r0⟩ := p
      dsimp only at h
      by_cases hle : x.1 ≤ y0.1
      · rw [if_pos hle] at h
        cases h
        intro y hy
        rcases List.mem_cons.mp hy with rfl | hm
        · exact le_refl _
        · exact le_trans hle (ih hxs y hm)
      · rw [if_neg hle] at h
        cases h
        intro y hy
        rcases List.mem_cons.mp hy with rfl | hm
        · exact le_of_lt (Nat.lt_of_not_le hle)
        · exact ih hxs y hm

theorem extractMin_first {q : List (Nat × HTree)} {m : Nat × HTree}
    {rest : List (Nat × HTree)} (h : extractMin q = some (m, rest)) :
    ∃ i, ∃ hi : i < q.length, q.get ⟨i, hi⟩ = m ∧
      ∀ k, ∀ hk : k < q.length, k < i → m.1 < (q.get ⟨k, hk⟩).1 := by
  induction q generalizing m rest with
  | nil => cases h
  | cons x xs ih =>
    unfold extractMin at h
    rcases hxs : extractMin xs with _ | p
    · rw [hxs] at h
      cases h
      exact ⟨0, by simp, rfl, fun k hk hki => absurd hki (Nat.not_lt_zero k)⟩
    · rw [hxs] at h
      obtain ⟨y0, r0⟩ := p
      dsimp only at h
      by_cases hle : x.1 ≤ y0.1
      · rw [if_pos hle] at h
        cases h
        exact ⟨0, by simp, rfl, fun k hk hki => absurd hki (Nat.not_lt_zero k)⟩
      · rw [if_neg hle] at h
        cases h
        obtain ⟨i, hi, hget, hfirst⟩ := ih hxs
        refine ⟨i + 1, by simpa using Nat.succ_lt_succ hi, hget, ?_⟩
        intro k hk hki
        cases k with
        | zero =>
          have hmin := extractMin_min hxs
          exact Nat.lt_of_not_le hle
        | succ k0 =>
          exact hfirst k0 (by simpa using Nat.lt_of_succ_lt_succ hk) (Nat.lt_of_succ_lt_succ hki)

/-! ### Claim theorems: comparator, capacity, configuration, scenarios -/

/-- C10: `SortHuffmanTree v0 v1` returns true exactly when
`v0.total_count < v1.total_count`; on equal counts it returns false in both
argument orders, so the comparator alone imposes no ordering among
equal-weight nodes. -/
theorem claim_C10_sort_comparator (v0 v1 : HuffmanTree) :
    (SortHuffmanTree v0 v1 = true ↔ v0.total_count < v1.total_count) ∧
    (v0.total_count = v1.total_count →
      SortHuffmanTree v0 v1 = false ∧ SortHuffmanTree v1 v0 = false) := by
  unfold SortHuffmanTree
  refine ⟨by simp, fun h => ⟨by simp [h], by simp [h]⟩⟩

/-- Witness for C10 at two equal-count nodes. -/
theorem claim_C10_witness :
    SortHuffmanTree ⟨5, 0, 1⟩ ⟨5, 2, 3⟩ = false ∧
    SortHuffmanTree ⟨5, 2, 3⟩ ⟨5, 0, 1⟩ = false :=
  (claim_C10_sort_comparator ⟨5, 0, 1⟩ ⟨5, 2, 3⟩).2 rfl

/-- C5 counterexample: an alphabet of 16385 symbols (well below the 32767
the claim asserts to be the cap) is already rejected with CapacityExceeded,
because its arena of 2·16385−1 = 32769 nodes exceeds the signed 16-bit index
range.  The int16 arena bound caps the alphabet at 16384 symbols, not
32767. -/
theorem claim_C5_counterexample :
    CreateHuffmanTree (List.replicate 16385 1) 15 = .error .capacityExceeded := by
  unfold CreateHuffmanTree
  rw [List.length_replicate, if_pos (by norm_num)]

/-- C5 (amended): the arena capacity check rejects exactly the alphabets of
more than 16384 symbols — for those, `CreateHuffmanTree` reports
CapacityExceeded before any merge and regardless of `tree_limit`; alphabets
of at most 16384 symbols never produce a CapacityExceeded error. -/
theorem claim_C5_capacity (data : List Nat) (tree_limit : Nat) :
    (16384 < data.length →
      CreateHuffmanTree data tree_limit = .error .capacityExceeded) ∧
    (data.length ≤ 16384 →
      CreateHuffmanTree data tree_limit ≠ .error .capacityExceeded) := by
  unfold CreateHuffmanTree
  dsimp only
  constructor
  · intro h
    split
    · rfl
    · exfalso; omega
  · intro h
    split
    · exfalso; omega
    · split
      · simp
      · split
        · simp
        · split
          · simp
          · split <;> simp

/-- Witness for C5 (amended): a 16385-symbol alphabet is rejected, a
3-symbol alphabet is not. -/
theorem claim_C5_witness :
    CreateHuffmanTree (List.replicate 16385 1) 15 = .error .capacityExceeded ∧
    CreateHuffmanTree [1, 2, 3] 15 ≠ .error .capacityExceeded :=
  ⟨(claim_C5_capacity (List.replicate 16385 1) 15).1
      (by rw [List.length_replicate]; norm_num),
   (claim_C5_capacity [1, 2, 3] 15).2 (by norm_num)⟩

/-- C6: whenever `tree_limit` is smaller than ⌈log₂(number of used
symbols)⌉ (and the alphabet is within the arena capacity, so that the
earlier capacity check does not fire first), `CreateHuffmanTree` reports
InvalidConfiguration rather than producing any depth table. -/
theorem claim_C6_invalid_configuration (data : List Nat) (tree_limit : Nat)
    (hcap : data.length ≤ 16384)
    (hlim : tree_limit < Nat.clog 2 (usedIdx data).length) :
    CreateHuffmanTree data tree_limit = .error .invalidConfiguration := by
  have hk : 2 ^ tree_limit < (usedIdx data).length :=
    (Nat.pow_lt_iff_lt_clog one_lt_two).mpr hlim
  unfold CreateHuffmanTree
  dsimp only
  split
  · exfalso; omega
  · split
    · rfl
    · rename_i hcond
      exact absurd (Or.inr hk) hcond

/-- Witness for C6: 20 used symbols with tree_limit = 3 (⌈log₂ 20⌉ = 5). -/
theorem claim_C6_witness :
    (List.replicate 20 1).length ≤ 16384 ∧
    3 < Nat.clog 2 (usedIdx (List.replicate 20 1)).length ∧
    CreateHuffmanTree (List.replicate 20 1) 3 = .error .invalidConfiguration := by
  have h1 : (List.replicate 20 1).length ≤ 16384 := by
    rw [List.length_replicate]; norm_num
  have h2 : 3 < Nat.clog 2 (usedIdx (List.replicate 20 1)).length := by
    have h20 : (usedIdx (List.replicate 20 1)).length = 20 := rfl
    rw [h20]
    exact (Nat.pow_lt_iff_lt_clog one_lt_two).mp (by norm_num)
  exact ⟨h1, h2, claim_C6_invalid_configuration _ _ h1 h2⟩

/-- C7: on weights [1, 1, 2, 5] with tree_limit 15, the merge order is
1+1→2, 2+2→4, 4+5→9; the resulting depths give the weight-5 symbol depth 1,
the weight-2 symbol depth 2 and the weight-1 symbols depth 3; the canonical
rule then assigns codes 0, 10₂, 110₂, 111₂ (by (depth, index) order). -/
theorem claim_C7_concrete :
    CreateHuffmanTree [1, 1, 2, 5] 15 = .ok [3, 3, 2, 1] ∧
    HuffmanMergeTrace [1, 1, 2, 5] = some [(1, 1, 2), (2, 2, 4), (4, 5, 9)] ∧
    ConvertBitDepthsToSymbols [3, 3, 2, 1] = [6, 7, 2, 0] :=
  ⟨rfl, rfl, rfl⟩

/-! ### Infrastructure for the depth-limiter invariants -/

theorem sumMap_set (f : Nat → Nat) :
    ∀ (l : List Nat) (i x : Nat) (h : i < l.length),
      ((l.set i x).map f).sum + f (l.get ⟨i, h⟩) = (l.map f).sum + f x := by
  intro l
  induction l with
  | nil => intro i x h; simp at h
  | cons a t ih =>
    intro i x h
    cases i with
    | zero =>
      show ((x :: t).map f).sum + f a = ((a :: t).map f).sum + f x
      simp only [List.map_cons, List.sum_cons]
      omega
    | succ i0 =>
      have h0 : i0 < t.length := by simpa using h
      have := ih i0 x h0
      simp only [List.set, List.map_cons, List.sum_cons, List.get]
      omega

theorem get_set_ne (l : List Nat) {i j : Nat} (x : Nat) (hne : i ≠ j)
    (hj : j < l.length) (hj2 : j < (l.set i x).length) :
    (l.set i x).get ⟨j, hj2⟩ = l.get ⟨j, hj⟩ := by
  simp only [List.get_eq_getElem]
  exact List.getElem_set_ne hne _

theorem mem_of_mem_set :
    ∀ (l : List Nat) (i x d : Nat), d ∈ l.set i x → d = x ∨ d ∈ l := by
  intro l
  induction l with
  | nil => intro i x d h; simp [List.set] at h
  | cons a t ih =>
    intro i x d h
    cases i with
    | zero =>
      rcases List.mem_cons.mp h with rfl | hm
      · exact Or.inl rfl
      · exact Or.inr (List.mem_cons_of_mem a hm)
    | succ i0 =>
      rcases List.mem_cons.mp h with rfl | hm
      · exact Or.inr (List.mem_cons_self _ _)
      · rcases ih i0 x d hm with hx | ht
        · exact Or.inl hx
        · exact Or.inr (List.mem_cons_of_mem a ht)

theorem foldr_min_le {s : Nat} : ∀ (l : List Nat), ∀ x ∈ l, l.foldr min s ≤ x := by
  intro l
  induction l with
  | nil => intro x hx; cases hx
  | cons a t ih =>
    intro x hx
    rcases List.mem_cons.mp hx with rfl | hm
    · exact min_le_left _ _
    · exact le_trans (min_le_right _ _) (ih x hm)

theorem foldr_min_mem_or {s : Nat} :
    ∀ (l : List Nat), l.foldr min s ∈ l ∨ l.foldr min s = s := by
  intro l
  induction l with
  | nil => exact Or.inr rfl
  | cons a t ih =>
    show min a (t.foldr min s) ∈ a :: t ∨ min a (t.foldr min s) = s
    rcases le_total a (t.foldr min s) with hle | hle
    · rw [min_eq_left hle]
      exact Or.inl (List.mem_cons_self _ _)
    · rw [min_eq_right hle]
      rcases ih with hm | hs
      · exact Or.inl (List.mem_cons_of_mem a hm)
      · exact Or.inr hs

theorem minD_le_of_mem {l : List Nat} {x : Nat} (h : x ∈ l) : minD l ≤ x :=
  foldr_min_le l x h

theorem maxD_mem {l : List Nat} (h : l ≠ []) : maxD l ∈ l := by
  cases l with
  | nil => exact absurd rfl h
  | cons a t =>
    by_cases h0 : maxD (a :: t) = 0
    · have ha : a = 0 := by
        have := le_maxD_of_mem (List.mem_cons_self a t)
        omega
      rw [show maxD (a :: t) = a from by omega]
      exact List.mem_cons_self a t
    · have : ∀ (l : List Nat) (s : Nat), l.foldr max s ∈ l ∨ l.foldr max s = s := by
        intro l
        induction l with
        | nil => exact fun s => Or.inr rfl
        | cons b u ih =>
          intro s
          show max b (u.foldr max s) ∈ b :: u ∨ max b (u.foldr max s) = s
          rcases le_total b (u.foldr max s) with hle | hle
          · rw [max_eq_right hle]
            rcases ih s with hm | hs
            · exact Or.inl (List.mem_cons_of_mem b hm)
            · exact Or.inr hs
          · rw [max_eq_left hle]
            exact Or.inl (List.mem_cons_self _ _)
      rcases this (a :: t) 0 with hm | hs
      · exact hm
      · exact absurd hs h0

theorem minD_mem {l : List Nat} (h : l ≠ []) : minD l ∈ l := by
  rcases foldr_min_mem_or l (s := maxD l) with hm | hs
  · exact hm
  · rw [minD, hs]
    exact maxD_mem h

theorem firstIdxWith_spec {p : Nat → Bool} :
    ∀ {l : List Nat} {i : Nat}, firstIdxWith p l = some i →
      ∃ h : i < l.length, p (l.get ⟨i, h⟩) = true ∧
        ∀ k, ∀ hk : k < l.length, k < i → p (l.get ⟨k, hk⟩) = false := by
  intro l
  induction l with
  | nil => intro i h; cases h
  | cons d rest ih =>
    intro i h
    unfold firstIdxWith at h
    by_cases hp : p d = true
    · rw [if_pos hp] at h
      cases h
      exact ⟨by simp, hp, fun k hk hki => absurd hki (Nat.not_lt_zero k)⟩
    · rw [if_neg hp] at h
      rcases hrest : firstIdxWith p rest with _ | i0
      · rw [hrest] at h; cases h
      · rw [hrest] at h
        have hi : i = i0 + 1 := (Option.some.inj h).symm
        subst hi
        obtain ⟨h0, hp0, hfirst⟩ := ih hrest
        refine ⟨by simpa using Nat.succ_lt_succ h0, hp0, ?_⟩
        intro k hk hki
        cases k with
        | zero => exact Bool.not_eq_true (p d) ▸ (by simpa using hp)
        | succ k0 =>
          exact hfirst k0 (by simpa using Nat.lt_of_succ_lt_succ hk)
            (Nat.lt_of_succ_lt_succ hki)

theorem firstIdxWith_isSome {p : Nat → Bool} :
    ∀ {l : List Nat}, (∃ x ∈ l, p x = true) → ∃ i, firstIdxWith p l = some i := by
  intro l
  induction l with
  | nil => intro h; obtain ⟨x, hx, _⟩ := h; cases hx
  | cons d rest ih =>
    intro h
    unfold firstIdxWith
    by_cases hp : p d = true
    · exact ⟨0, by rw [if_pos hp]⟩
    · obtain ⟨x, hx, hpx⟩ := h
      rcases List.mem_cons.mp hx with rfl | hm
      · exact absurd hpx hp
      · obtain ⟨i0, hi0⟩ := ih ⟨x, hm, hpx⟩
        exact ⟨i0 + 1, by rw [if_neg hp, hi0]; rfl⟩

theorem natKraft_cons (M d : Nat) (t : List Nat) :
    natKraft M (d :: t) = 2 ^ (M - d) + natKraft M t := rfl

theorem natKraft_append (M : Nat) (l1 l2 : List Nat) :
    natKraft M (l1 ++ l2) = natKraft M l1 + natKraft M l2 := by
  unfold natKraft
  rw [List.map_append, List.sum_append]

theorem natKraft_factor (M0 M : Nat) (hM : M ≤ M0) :
    ∀ ds : List Nat, (∀ d ∈ ds, d ≤ M) →
      natKraft M0 ds = 2 ^ (M0 - M) * natKraft M ds := by
  intro ds
  induction ds with
  | nil => intro _; simp [natKraft]
  | cons d t ih =>
    intro h
    have hd : d ≤ M := h d (List.mem_cons_self d t)
    rw [natKraft_cons, natKraft_cons, ih (fun x hx => h x (List.mem_cons_of_mem d hx))]
    rw [Nat.mul_add, ← Nat.pow_add, show M0 - M + (M - d) = M0 - d from by omega]

theorem natKraft_mod_two (M : Nat) (hM : 1 ≤ M) :
    ∀ ds : List Nat, (∀ d ∈ ds, d ≤ M) →
      natKraft M ds % 2 = ds.count M % 2 := by
  intro ds
  induction ds with
  | nil => intro _; rfl
  | cons d t ih =>
    intro h
    have hd : d ≤ M := h d (List.mem_cons_self d t)
    have iht := ih (fun x hx => h x (List.mem_cons_of_mem d hx))
    rw [natKraft_cons, List.count_cons]
    by_cases hdm : d = M
    · subst hdm
      rw [Nat.sub_self]
      rw [if_pos (by simp)]
      omega
    · rw [if_neg (by simp [hdm])]
      have hdvd : 2 ∣ 2 ^ (M - d) := dvd_pow_self 2 (by omega)
      omega

theorem mem_take_idx :
    ∀ (l : List Nat) (n : Nat) (x : Nat), x ∈ l.take n →
      ∃ k, ∃ hk : k < l.length, k < n ∧ l.get ⟨k, hk⟩ = x := by
  intro l
  induction l with
  | nil => intro n x hx; simp at hx
  | cons a t ih =>
    intro n x hx
    cases n with
    | zero => simp at hx
    | succ n0 =>
      rw [List.take_succ_cons] at hx
      rcases List.mem_cons.mp hx with rfl | hm
      · exact ⟨0, by simp, Nat.succ_pos n0, rfl⟩
      · obtain ⟨k, hk, hkn, hget⟩ := ih n0 x hm
        exact ⟨k + 1, by simpa using Nat.succ_lt_succ hk, Nat.succ_lt_succ hkn, hget⟩

theorem count_ge_two_second {ds : List Nat} {i1 : Nat} {v : Nat}
    (h1 : i1 < ds.length) (hv : ds.get ⟨i1, h1⟩ = v)
    (hfirst : ∀ k, ∀ hk : k < ds.length, k < i1 → (ds.get ⟨k, hk⟩ = v) → False)
    (hcount : 2 ≤ ds.count v) :
    v ∈ ds.drop (i1 + 1) := by
  have hsplit : ds = ds.take (i1 + 1) ++ ds.drop (i1 + 1) :=
    (List.take_append_drop (i1 + 1) ds).symm
  have hcnt : ds.count v = (ds.take (i1 + 1)).count v + (ds.drop (i1 + 1)).count v := by
    conv_lhs => rw [hsplit]
    exact List.count_append v _ _
  have htake : (ds.take (i1 + 1)).count v ≤ 1 := by
    have hsub : ds.take (i1 + 1) = ds.take i1 ++ [ds.get ⟨i1, h1⟩] := by
      rw [List.take_succ]
      congr 1
      rw [List.get_eq_getElem, show ds[i1]?.toList = [ds[i1]] from by
        rw [List.getElem?_eq_getElem h1]; rfl]
    rw [hsub, List.count_append]
    have hz : (ds.take i1).count v = 0 := by
      rw [List.count_eq_zero]
      intro hmem
      obtain ⟨k, hk, hki, hget⟩ := mem_take_idx ds i1 v hmem
      exact hfirst k hk hki hget
    have hone : ([ds.get ⟨i1, h1⟩] : List Nat).count v ≤ 1 := by
      rw [hv]
      simp
    omega
  have hdrop : 1 ≤ (ds.drop (i1 + 1)).count v := by omega
  exact List.count_pos_iff.mp (by omega)

theorem natKraft_upper (M L : Nat) :
    ∀ ds : List Nat, (∀ d ∈ ds, L ≤ d) →
      natKraft M ds ≤ ds.length * 2 ^ (M - L) := by
  intro ds
  induction ds with
  | nil => intro _; simp [natKraft]
  | cons d t ih =>
    intro h
    have hd : L ≤ d := h d (List.mem_cons_self d t)
    have iht := ih (fun x hx => h x (List.mem_cons_of_mem d hx))
    rw [natKraft_cons, List.length_cons, Nat.succ_mul]
    have hterm : 2 ^ (M - d) ≤ 2 ^ (M - L) :=
      Nat.pow_le_pow_right (by norm_num) (by omega)
    omega

theorem exists_lt_L {L M : Nat} {ds : List Nat} (hLM : L < M)
    (hlen : ds.length ≤ 2 ^ L) (hkraft : natKraft M ds = 2 ^ M)
    (hmem : M ∈ ds) : ∃ d ∈ ds, d < L := by
  by_contra hcon
  push_neg at hcon
  obtain ⟨l1, l2, rfl⟩ := List.append_of_mem hmem
  have hb1 : natKraft M l1 ≤ l1.length * 2 ^ (M - L) :=
    natKraft_upper M L l1 (fun d hd => hcon d (List.mem_append_left _ hd))
  have hb2 : natKraft M l2 ≤ l2.length * 2 ^ (M - L) :=
    natKraft_upper M L l2
      (fun d hd => hcon d (List.mem_append_right _ (List.mem_cons_of_mem M hd)))
  have hksplit : natKraft M (l1 ++ M :: l2) =
      natKraft M l1 + 1 + natKraft M l2 := by
    rw [natKraft_append, natKraft_cons, Nat.sub_self, pow_zero]
    omega
  have hlen2 : l1.length + l2.length + 1 ≤ 2 ^ L := by
    have := hlen
    simp only [List.length_append, List.length_cons] at this
    omega
  have hpow : 2 ^ L * 2 ^ (M - L) = 2 ^ M := by
    rw [← Nat.pow_add, show L + (M - L) = M from by omega]
  have hB2 : 2 ≤ 2 ^ (M - L) := by
    calc (2 : Nat) = 2 ^ 1 := by norm_num
    _ ≤ 2 ^ (M - L) := Nat.pow_le_pow_right (by norm_num) (by omega)
  have hchain : 2 ^ M + 2 ^ (M - L) ≤ 2 ^ M + 1 := by
    have h1 : 2 ^ M + 2 ^ (M - L) =
        natKraft M l1 + 1 + natKraft M l2 + 2 ^ (M - L) := by
      rw [← hkraft, hksplit]
    have h2 : natKraft M l1 + 1 + natKraft M l2 + 2 ^ (M - L) ≤
        l1.length * 2 ^ (M - L) + 1 + l2.length * 2 ^ (M - L) + 2 ^ (M - L) := by
      omega
    have h3 : l1.length * 2 ^ (M - L) + 1 + l2.length * 2 ^ (M - L) +
        2 ^ (M - L) = (l1.length + l2.length + 1) * 2 ^ (M - L) + 1 := by ring
    have h4 : (l1.length + l2.length + 1) * 2 ^ (M - L) ≤
        2 ^ L * 2 ^ (M - L) :=
      Nat.mul_le_mul_right _ hlen2
    omega
  omega

theorem natKraft_eq (M : Nat) (l : List Nat) :
    natKraft M l = (l.map (fun d => 2 ^ (M - d))).sum := rfl

theorem measureL_eq (L : Nat) (l : List Nat) :
    measureL L l = (l.map (fun d => d - L)).sum := rfl

/-- One limiter step preserves length, the depth bounds and the exact scaled
Kraft sum, and strictly decreases the excess measure, whenever the current
maximum exceeds the limit and the invariants hold. -/
theorem limitStep_spec (L M0 : Nat) (ds : List Nat)
    (hL : 1 ≤ L) (hlen2 : 2 ≤ ds.length) (hk2L : ds.length ≤ 2 ^ L)
    (hlow : ∀ d ∈ ds, 1 ≤ d) (hup : ∀ d ∈ ds, d ≤ M0)
    (hkraft : natKraft M0 ds = 2 ^ M0) (hover : L < maxD ds) :
    (limitStep L ds).length = ds.length ∧
    (∀ d ∈ limitStep L ds, 1 ≤ d) ∧
    (∀ d ∈ limitStep L ds, d ≤ M0) ∧
    natKraft M0 (limitStep L ds) = 2 ^ M0 ∧
    measureL L (limitStep L ds) < measureL L ds := by
  have hne : ds ≠ [] := by
    intro hc
    rw [hc] at hlen2
    simp at hlen2
  set M := maxD ds with hMdef
  have hMmem : M ∈ ds := maxD_mem hne
  have hMM0 : M ≤ M0 := hup M hMmem
  have hM1 : 1 ≤ M := by omega
  -- exact Kraft at the current maximum
  have hfac : natKraft M0 ds = 2 ^ (M0 - M) * natKraft M ds :=
    natKraft_factor M0 M hMM0 ds (fun d hd => le_maxD_of_mem hd)
  have hpowsplit : (2 : Nat) ^ M0 = 2 ^ (M0 - M) * 2 ^ M := by
    rw [← Nat.pow_add, show M0 - M + M = M0 from by omega]
  have hkraftM : natKraft M ds = 2 ^ M := by
    have := hfac.symm.trans hkraft
    rw [hpowsplit] at this
    exact Nat.eq_of_mul_eq_mul_left (Nat.pos_pow_of_pos _ (by norm_num)) this
  -- the count of maximal depths is even, hence at least 2
  have hcount2 : 2 ≤ ds.count M := by
    have hpar := natKraft_mod_two M hM1 ds (fun d hd => le_maxD_of_mem hd)
    have h2M : (2 : Nat) ^ M = 2 * 2 ^ (M - 1) := by
      rw [← pow_succ']
      congr 1
      omega
    have hpos : 0 < ds.count M := List.count_pos_iff.mpr hMmem
    omega
  -- first maximal index
  obtain ⟨i1, hi1⟩ := firstIdxWith_isSome (p := fun d => d == M)
    ⟨M, hMmem, by simp⟩
  obtain ⟨h1lt, hp1, hfirst1⟩ := firstIdxWith_spec hi1
  have hg1 : ds.get ⟨i1, h1lt⟩ = M := by simpa using hp1
  -- second maximal index, strictly after the first
  have hMdrop : M ∈ ds.drop (i1 + 1) := by
    apply count_ge_two_second h1lt hg1 _ hcount2
    intro k hk hki hgk
    have hfk := hfirst1 k hk hki
    rw [hgk] at hfk
    simp at hfk
  obtain ⟨i2off, hi2⟩ := firstIdxWith_isSome (p := fun d => d == M)
    ⟨M, hMdrop, by simp⟩
  obtain ⟨h2lt, hp2, _⟩ := firstIdxWith_spec hi2
  have h2len : i1 + 1 + i2off < ds.length := by
    have := h2lt
    rw [List.length_drop] at this
    omega
  have hg2 : ds.get ⟨i1 + 1 + i2off, h2len⟩ = M := by
    have : (ds.drop (i1 + 1)).get ⟨i2off, h2lt⟩ =
        ds.get ⟨i1 + 1 + i2off, h2len⟩ := by
      simp only [List.get_eq_getElem]
      exact List.getElem_drop ..
    rw [← this]
    simpa using hp2
  -- a leaf strictly below the limit exists; the shallowest level is below L
  have hjlt : minD ds < L := by
    obtain ⟨d0, hd0mem, hd0L⟩ := exists_lt_L (by omega) hk2L hkraftM hMmem
    exact lt_of_le_of_lt (minD_le_of_mem hd0mem) hd0L
  set j := minD ds with hjdef
  have hjmem : j ∈ ds := minD_mem hne
  obtain ⟨i3, hi3⟩ := firstIdxWith_isSome (p := fun d => d == j)
    ⟨j, hjmem, by simp⟩
  obtain ⟨h3lt, hp3, _⟩ := firstIdxWith_spec hi3
  have hg3 : ds.get ⟨i3, h3lt⟩ = j := by simpa using hp3
  -- the three indices are pairwise distinct
  have hjM : j < M := by omega
  have hne13 : i1 ≠ i3 := by
    intro hc
    subst hc
    rw [hg1] at hg3
    omega
  have hne23 : i1 + 1 + i2off ≠ i3 := by
    intro hc
    have hsame : ds.get ⟨i1 + 1 + i2off, h2len⟩ = ds.get ⟨i3, h3lt⟩ := by
      congr 1
      exact Fin.ext hc
    rw [hg2, hg3] at hsame
    omega
  -- the step takes the rebalancing branch
  have hstep : limitStep L ds =
      ((ds.set i1 (M - 1)).set (i1 + 1 + i2off) (j + 1)).set i3 (j + 1) := by
    unfold limitStep
    dsimp only
    rw [← hMdef, hi1]
    dsimp only
    rw [hi2]
    dsimp only
    rw [← hjdef, if_neg (by omega : ¬ L ≤ j), hi3]
  rw [hstep]
  -- lengths
  have hlen3 : (((ds.set i1 (M - 1)).set (i1 + 1 + i2off) (j + 1)).set i3
      (j + 1)).length = ds.length := by simp
  refine ⟨hlen3, ?_, ?_, ?_, ?_⟩
  · intro d hd
    rcases mem_of_mem_set _ _ _ _ hd with rfl | hd2
    · omega
    rcases mem_of_mem_set _ _ _ _ hd2 with rfl | hd3
    · omega
    rcases mem_of_mem_set _ _ _ _ hd3 with rfl | hd4
    · omega
    · exact hlow d hd4
  · intro d hd
    rcases mem_of_mem_set _ _ _ _ hd with rfl | hd2
    · omega
    rcases mem_of_mem_set _ _ _ _ hd2 with rfl | hd3
    · omega
    rcases mem_of_mem_set _ _ _ _ hd3 with rfl | hd4
    · omega
    · exact hup d hd4
  all_goals {
    first
    | -- Kraft preservation
      (have e1 := sumMap_set (fun d => 2 ^ (M0 - d)) ds i1 (M - 1) h1lt
       have e2 := sumMap_set (fun d => 2 ^ (M0 - d)) (ds.set i1 (M - 1))
         (i1 + 1 + i2off) (j + 1) (by simpa using h2len)
       have e3 := sumMap_set (fun d => 2 ^ (M0 - d))
         ((ds.set i1 (M - 1)).set (i1 + 1 + i2off) (j + 1)) i3 (j + 1)
         (by simpa using h3lt)
       rw [hg1] at e1
       rw [get_set_ne ds (M - 1) (by omega) h2len _, hg2] at e2
       rw [get_set_ne _ (j + 1) hne23 (by simpa using h3lt) _,
         get_set_ne ds (M - 1) hne13 h3lt _, hg3] at e3
       rw [← natKraft_eq, ← natKraft_eq] at e1
       rw [← natKraft_eq, ← natKraft_eq] at e2
       rw [← natKraft_eq, ← natKraft_eq] at e3
       have hfM1 : (2 : Nat) ^ (M0 - (M - 1)) = 2 * 2 ^ (M0 - M) := by
         rw [← pow_succ']
         congr 1
         omega
       have hfj : (2 : Nat) ^ (M0 - j) = 2 * 2 ^ (M0 - (j + 1)) := by
         rw [← pow_succ']
         congr 1
         omega
       omega)
    | -- measure decrease
      (have e1 := sumMap_set (fun d => d - L) ds i1 (M - 1) h1lt
       have e2 := sumMap_set (fun d => d - L) (ds.set i1 (M - 1))
         (i1 + 1 + i2off) (j + 1) (by simpa using h2len)
       have e3 := sumMap_set (fun d => d - L)
         ((ds.set i1 (M - 1)).set (i1 + 1 + i2off) (j + 1)) i3 (j + 1)
         (by simpa using h3lt)
       rw [hg1] at e1
       rw [get_set_ne ds (M - 1) (by omega) h2len _, hg2] at e2
       rw [get_set_ne _ (j + 1) hne23 (by simpa using h3lt) _,
         get_set_ne ds (M - 1) hne13 h3lt _, hg3] at e3
       rw [← measureL_eq, ← measureL_eq] at e1
       rw [← measureL_eq, ← measureL_eq] at e2
       rw [← measureL_eq, ← measureL_eq] at e3
       omega)
  }

/-- The depth limiter, run with fuel at least the excess measure, yields a
list of the same length with every depth in [1, L] and the exact scaled
Kraft sum preserved. -/
theorem limitLoop_succ (f L : Nat) (ds : List Nat) :
    limitLoop (f + 1) L ds =
      if maxD ds ≤ L then ds else limitLoop f L (limitStep L ds) := rfl

theorem limitLoop_spec (L M0 : Nat) :
    ∀ (fuel : Nat) (ds : List Nat),
      measureL L ds ≤ fuel → 1 ≤ L → 2 ≤ ds.length → ds.length ≤ 2 ^ L →
      (∀ d ∈ ds, 1 ≤ d) → (∀ d ∈ ds, d ≤ M0) → natKraft M0 ds = 2 ^ M0 →
      (limitLoop fuel L ds).length = ds.length ∧
      (∀ d ∈ limitLoop fuel L ds, 1 ≤ d) ∧
      (∀ d ∈ limitLoop fuel L ds, d ≤ L) ∧
      natKraft M0 (limitLoop fuel L ds) = 2 ^ M0 := by
  intro fuel
  induction fuel with
  | zero =>
    intro ds hm hL hlen h2L hlow hup hkraft
    have hz : (ds.map (fun d => d - L)).sum = 0 := by
      have := hm
      rw [measureL_eq] at this
      omega
    have hall : ∀ d ∈ ds, d ≤ L := by
      intro d hd
      have := List.sum_eq_zero_iff.mp hz (d - L) (List.mem_map_of_mem _ hd)
      omega
    exact ⟨rfl, hlow, hall, hkraft⟩
  | succ f ih =>
    intro ds hm hL hlen h2L hlow hup hkraft
    by_cases hmax : maxD ds ≤ L
    · have heq : limitLoop (f + 1) L ds = ds := by
        rw [limitLoop_succ, if_pos hmax]
      rw [heq]
      exact ⟨rfl, hlow, fun d hd => le_trans (le_maxD_of_mem hd) hmax, hkraft⟩
    · have hover : L < maxD ds := by omega
      obtain ⟨hlen', hlow', hup', hkraft', hmeas'⟩ :=
        limitStep_spec L M0 ds hL hlen h2L hlow hup hkraft hover
      have hrec : limitLoop (f + 1) L ds = limitLoop f L (limitStep L ds) := by
        rw [limitLoop_succ, if_neg hmax]
      rw [hrec]
      obtain ⟨r1, r2, r3, r4⟩ := ih (limitStep L ds) (by omega) hL (by omega)
        (by omega) hlow' hup' hkraft'
      exact ⟨by omega, r2, r3, r4⟩

/-- Under the limiter invariants, the rebalancing step rewrites into a form
that does not mention the limit: the chosen indices and new depths depend
only on the list.  (The limit only selects when the loop stops.) -/
theorem limitStep_shape (L M0 : Nat) (ds : List Nat)
    (hL : 1 ≤ L) (hlen2 : 2 ≤ ds.length) (hk2L : ds.length ≤ 2 ^ L)
    (_hlow : ∀ d ∈ ds, 1 ≤ d) (hup : ∀ d ∈ ds, d ≤ M0)
    (hkraft : natKraft M0 ds = 2 ^ M0) (hover : L < maxD ds) :
    limitStep L ds =
      ((ds.set ((firstIdxWith (fun d => d == maxD ds) ds).getD 0)
          (maxD ds - 1)).set
        ((firstIdxWith (fun d => d == maxD ds) ds).getD 0 + 1 +
          (firstIdxWith (fun d => d == maxD ds)
            (ds.drop ((firstIdxWith (fun d => d == maxD ds) ds).getD 0 + 1))).getD 0)
        (minD ds + 1)).set
        ((firstIdxWith (fun d => d == minD ds) ds).getD 0) (minD ds + 1) := by
  have hne : ds ≠ [] := by
    intro hc
    rw [hc] at hlen2
    simp at hlen2
  set M := maxD ds with hMdef
  have hMmem : M ∈ ds := maxD_mem hne
  have hMM0 : M ≤ M0 := hup M hMmem
  have hM1 : 1 ≤ M := by omega
  have hfac : natKraft M0 ds = 2 ^ (M0 - M) * natKraft M ds :=
    natKraft_factor M0 M hMM0 ds (fun d hd => le_maxD_of_mem hd)
  have hpowsplit : (2 : Nat) ^ M0 = 2 ^ (M0 - M) * 2 ^ M := by
    rw [← Nat.pow_add, show M0 - M + M = M0 from by omega]
  have hkraftM : natKraft M ds = 2 ^ M := by
    have := hfac.symm.trans hkraft
    rw [hpowsplit] at this
    exact Nat.eq_of_mul_eq_mul_left (Nat.pos_pow_of_pos _ (by norm_num)) this
  have hcount2 : 2 ≤ ds.count M := by
    have hpar := natKraft_mod_two M hM1 ds (fun d hd => le_maxD_of_mem hd)
    have h2M : (2 : Nat) ^ M = 2 * 2 ^ (M - 1) := by
      rw [← pow_succ']
      congr 1
      omega
    have hpos : 0 < ds.count M := List.count_pos_iff.mpr hMmem
    omega
  obtain ⟨i1, hi1⟩ := firstIdxWith_isSome (p := fun d => d == M)
    ⟨M, hMmem, by simp⟩
  obtain ⟨h1lt, hp1, hfirst1⟩ := firstIdxWith_spec hi1
  have hg1 : ds.get ⟨i1, h1lt⟩ = M := by simpa using hp1
  have hMdrop : M ∈ ds.drop (i1 + 1) := by
    apply count_ge_two_second h1lt hg1 _ hcount2
    intro k hk hki hgk
    have hfk := hfirst1 k hk hki
    rw [hgk] at hfk
    simp at hfk
  obtain ⟨i2off, hi2⟩ := firstIdxWith_isSome (p := fun d => d == M)
    ⟨M, hMdrop, by simp⟩
  have hjlt : minD ds < L := by
    obtain ⟨d0, hd0mem, hd0L⟩ := exists_lt_L (by omega) hk2L hkraftM hMmem
    exact lt_of_le_of_lt (minD_le_of_mem hd0mem) hd0L
  set j := minD ds with hjdef
  have hjmem : j ∈ ds := minD_mem hne
  obtain ⟨i3, hi3⟩ := firstIdxWith_isSome (p := fun d => d == j)
    ⟨j, hjmem, by simp⟩
  have hstep : limitStep L ds =
      ((ds.set i1 (M - 1)).set (i1 + 1 + i2off) (j + 1)).set i3 (j + 1) := by
    unfold limitStep
    dsimp only
    rw [← hMdef, hi1]
    dsimp only
    rw [hi2]
    dsimp only
    rw [← hjdef, if_neg (by omega : ¬ L ≤ j), hi3]
  rw [hstep, hi1]
  simp only [Option.getD_some]
  rw [hi2]
  simp only [Option.getD_some]
  rw [hi3]
  simp only [Option.getD_some]

/-- The rebalancing step does not depend on the limit, as long as both
limits are below the current maximum and the invariants hold at the smaller
limit. -/
theorem limitStep_congr (L1 L2 M0 : Nat) (ds : List Nat)
    (hL2 : 1 ≤ L2) (hle : L2 ≤ L1) (hlen2 : 2 ≤ ds.length)
    (hk2 : ds.length ≤ 2 ^ L2)
    (hlow : ∀ d ∈ ds, 1 ≤ d) (hup : ∀ d ∈ ds, d ≤ M0)
    (hkraft : natKraft M0 ds = 2 ^ M0) (hover : L1 < maxD ds) :
    limitStep L1 ds = limitStep L2 ds := by
  rw [limitStep_shape L1 M0 ds (by omega) hlen2
      (le_trans hk2 (Nat.pow_le_pow_right (by norm_num) hle)) hlow hup hkraft
      hover,
    limitStep_shape L2 M0 ds hL2 hlen2 hk2 hlow hup hkraft (by omega)]

/-- If the limiter run at the larger limit already lands within the smaller
limit, the run at the smaller limit produces the identical result. -/
theorem limitLoop_congr (L1 L2 M0 : Nat) :
    ∀ (fuel : Nat) (ds : List Nat),
      1 ≤ L2 → L2 ≤ L1 → 2 ≤ ds.length → ds.length ≤ 2 ^ L2 →
      (∀ d ∈ ds, 1 ≤ d) → (∀ d ∈ ds, d ≤ M0) → natKraft M0 ds = 2 ^ M0 →
      (∀ d ∈ limitLoop fuel L1 ds, d ≤ L2) →
      limitLoop fuel L2 ds = limitLoop fuel L1 ds := by
  intro fuel
  induction fuel with
  | zero => intro ds _ _ _ _ _ _ _ _; rfl
  | succ f ih =>
    intro ds hL2 hle hlen2 hk2 hlow hup hkraft hfit
    by_cases hmax1 : maxD ds ≤ L1
    · have he1 : limitLoop (f + 1) L1 ds = ds := by
        rw [limitLoop_succ, if_pos hmax1]
      rw [he1] at hfit
      have hmax2 : maxD ds ≤ L2 := maxD_le hfit
      rw [he1, limitLoop_succ, if_pos hmax2]
    · have hover : L1 < maxD ds := by omega
      have hstep_eq : limitStep L1 ds = limitStep L2 ds :=
        limitStep_congr L1 L2 M0 ds hL2 hle hlen2 hk2 hlow hup hkraft hover
      have he1 : limitLoop (f + 1) L1 ds = limitLoop f L1 (limitStep L1 ds) := by
        rw [limitLoop_succ, if_neg hmax1]
      have he2 : limitLoop (f + 1) L2 ds = limitLoop f L2 (limitStep L2 ds) := by
        rw [limitLoop_succ, if_neg (by omega)]
      rw [he1] at hfit
      rw [he2, he1, ← hstep_eq]
      obtain ⟨plen, plow, pup, pkraft, _⟩ :=
        limitStep_spec L2 M0 ds hL2 hlen2 hk2 hlow hup hkraft (by omega)
      rw [← hstep_eq] at plen plow pup pkraft
      exact ih (limitStep L1 ds) hL2 hle (by omega) (by omega)
        plow pup pkraft hfit

/-! ### Builder-phase invariants -/

theorem extractMin_perm {q : List (Nat × HTree)} {m : Nat × HTree}
    {rest : List (Nat × HTree)} (h : extractMin q = some (m, rest)) :
    q.Perm (m :: rest) := by
  induction q generalizing m rest with
  | nil => cases h
  | cons x xs ih =>
    unfold extractMin at h
    rcases hxs : extractMin xs with _ | p
    · rw [hxs] at h
      have hnil : xs = [] := extractMin_eq_none.mp hxs
      subst hnil
      cases h
      exact List.Perm.refl _
    · rw [hxs] at h
      obtain ⟨y0, r0⟩ := p
      dsimp only at h
      by_cases hle : x.1 ≤ y0.1
      · rw [if_pos hle] at h
        cases h
        exact List.Perm.refl _
      · rw [if_neg hle] at h
        cases h
        exact ((ih hxs).cons x).trans (List.Perm.swap _ _ _)

theorem leavesOfQ_perm {q q' : List (Nat × HTree)} (h : q.Perm q') :
    (leavesOfQ q).Perm (leavesOfQ q') := by
  unfold leavesOfQ
  exact (h.map (fun x => x.2.leavesL)).flatten

theorem leavesOfQ_append (a b : List (Nat × HTree)) :
    leavesOfQ (a ++ b) = leavesOfQ a ++ leavesOfQ b := by
  unfold leavesOfQ
  rw [List.map_append, List.flatten_append]

theorem buildLoop_succ (f : Nat) (q : List (Nat × HTree))
    (tr : List (Nat × Nat × Nat)) :
    buildLoop (f + 1) q tr =
      match extractMin q with
      | none => none
      | some (x, q1) =>
        match extractMin q1 with
        | none => some (x, tr)
        | some (y, q2) =>
          buildLoop f (q2 ++ [(x.1 + y.1, HTree.node x.2 y.2)])
            (tr ++ [(x.1, y.1, x.1 + y.1)]) := rfl

theorem buildLoop_leaves :
    ∀ (fuel : Nat) (q : List (Nat × HTree)) (tr : List (Nat × Nat × Nat))
      (w : Nat) (t : HTree) (tr2 : List (Nat × Nat × Nat)),
      buildLoop fuel q tr = some ((w, t), tr2) →
      t.leavesL.Perm (leavesOfQ q) := by
  intro fuel
  induction fuel with
  | zero => intro q tr w t tr2 h; cases h
  | succ f ih =>
    intro q tr w t tr2 h
    rw [buildLoop_succ] at h
    rcases hq : extractMin q with _ | ⟨x, q1⟩
    · rw [hq] at h; cases h
    rw [hq] at h
    dsimp only at h
    rcases hq1 : extractMin q1 with _ | ⟨y, q2⟩
    · rw [hq1] at h
      dsimp only at h
      have hx : x = (w, t) := congrArg Prod.fst (Option.some.inj h)
      have hnil : q1 = [] := extractMin_eq_none.mp hq1
      subst hnil
      have hperm := leavesOfQ_perm (extractMin_perm hq)
      have hlq : leavesOfQ [x] = t.leavesL := by
        rw [hx]
        exact List.append_nil _
      rw [hlq] at hperm
      exact hperm.symm
    · rw [hq1] at h
      dsimp only at h
      have hperm1 := leavesOfQ_perm (extractMin_perm hq)
      have hperm2 := leavesOfQ_perm (extractMin_perm hq1)
      have step1 : t.leavesL.Perm
          (leavesOfQ (q2 ++ [(x.1 + y.1, HTree.node x.2 y.2)])) := ih _ _ _ _ _ h
      have step2 : leavesOfQ (q2 ++ [(x.1 + y.1, HTree.node x.2 y.2)]) =
          leavesOfQ q2 ++ (x.2.leavesL ++ y.2.leavesL) := by
        rw [leavesOfQ_append]
        congr 1
        exact List.append_nil _
      have step3 : (leavesOfQ q2 ++ (x.2.leavesL ++ y.2.leavesL)).Perm
          (x.2.leavesL ++ (y.2.leavesL ++ leavesOfQ q2)) := by
        have hcomm : ∀ u v : List Nat, (u ++ v).Perm (v ++ u) :=
          fun u v => List.perm_append_comm
        have := hcomm (leavesOfQ q2) (x.2.leavesL ++ y.2.leavesL)
        rw [List.append_assoc] at this
        exact this
      have step4 : (x.2.leavesL ++ (y.2.leavesL ++ leavesOfQ q2)).Perm
          (x.2.leavesL ++ leavesOfQ q1) := by
        apply List.Perm.append_left
        have hyq : leavesOfQ (y :: q2) = y.2.leavesL ++ leavesOfQ q2 := rfl
        rw [← hyq]
        exact hperm2.symm
      have step5 : (x.2.leavesL ++ leavesOfQ q1) = leavesOfQ (x :: q1) := rfl
      exact ((((step1.trans (step2 ▸ List.Perm.refl _)).trans step3).trans
        step4).trans (step5 ▸ List.Perm.refl _)).trans hperm1.symm

theorem buildLoop_some :
    ∀ (fuel : Nat) (q : List (Nat × HTree)) (tr : List (Nat × Nat × Nat)),
      q ≠ [] → q.length ≤ fuel → ∃ r, buildLoop fuel q tr = some r := by
  intro fuel
  induction fuel with
  | zero =>
    intro q tr hne hlen
    cases q with
    | nil => exact absurd rfl hne
    | cons a b => simp at hlen
  | succ f ih =>
    intro q tr hne hlen
    rcases hq : extractMin q with _ | ⟨x, q1⟩
    · exact absurd (extractMin_eq_none.mp hq) hne
    rcases hq1 : extractMin q1 with _ | ⟨y, q2⟩
    · refine ⟨(x, tr), ?_⟩
      rw [buildLoop_succ, hq]
      dsimp only
      rw [hq1]
    · have hl1 : q.length = q1.length + 1 := by
        have := (extractMin_perm hq).length_eq
        simpa using this
      have hl2 : q1.length = q2.length + 1 := by
        have := (extractMin_perm hq1).length_eq
        simpa using this
      have hlf : (q2 ++ [(x.1 + y.1, HTree.node x.2 y.2)]).length ≤ f := by
        simp only [List.length_append, List.length_cons, List.length_nil]
        omega
      obtain ⟨r, hr⟩ := ih (q2 ++ [(x.1 + y.1, HTree.node x.2 y.2)])
        (tr ++ [(x.1, y.1, x.1 + y.1)]) (by simp) hlf
      refine ⟨r, ?_⟩
      rw [buildLoop_succ, hq]
      dsimp only
      rw [hq1]
      exact hr

theorem SetDepth_fst : ∀ (t : HTree) (lv : Nat),
    (SetDepth t lv).map Prod.fst = t.leavesL := by
  intro t
  induction t with
  | leaf s => intro lv; rfl
  | node l r ihl ihr =>
    intro lv
    show (SetDepth l (lv + 1) ++ SetDepth r (lv + 1)).map Prod.fst =
      l.leavesL ++ r.leavesL
    rw [List.map_append, ihl, ihr]

theorem SetDepth_level_le : ∀ (t : HTree) (lv : Nat) (p : Nat × Nat),
    p ∈ SetDepth t lv → lv ≤ p.2 := by
  intro t
  induction t with
  | leaf s =>
    intro lv p hp
    have : p = (s, lv) := by simpa [SetDepth] using hp
    rw [this]
  | node l r ihl ihr =>
    intro lv p hp
    rcases List.mem_append.mp hp with hm | hm
    · exact le_trans (Nat.le_succ lv) (ihl (lv + 1) p hm)
    · exact le_trans (Nat.le_succ lv) (ihr (lv + 1) p hm)

theorem SetDepth_ne_nil : ∀ (t : HTree) (lv : Nat), SetDepth t lv ≠ [] := by
  intro t
  induction t with
  | leaf s => intro lv h; cases h
  | node l r ihl ihr =>
    intro lv h
    rcases List.append_eq_nil.mp h with ⟨h1, _⟩
    exact ihl (lv + 1) h1

theorem natKraft_SetDepth (M : Nat) : ∀ (t : HTree) (lv : Nat),
    (∀ p ∈ SetDepth t lv, p.2 ≤ M) → lv ≤ M →
    ((SetDepth t lv).map (fun p => 2 ^ (M - p.2))).sum = 2 ^ (M - lv) := by
  intro t
  induction t with
  | leaf s =>
    intro lv _ _
    show 2 ^ (M - lv) + 0 = 2 ^ (M - lv)
    omega
  | node l r ihl ihr =>
    intro lv hb hlv
    obtain ⟨p0, hp0⟩ := List.exists_mem_of_ne_nil _ (SetDepth_ne_nil l (lv + 1))
    have hlv1 : lv + 1 ≤ M :=
      le_trans (SetDepth_level_le l (lv + 1) p0 hp0)
        (hb p0 (List.mem_append_left _ hp0))
    show ((SetDepth l (lv + 1) ++ SetDepth r (lv + 1)).map
      (fun p => 2 ^ (M - p.2))).sum = 2 ^ (M - lv)
    rw [List.map_append, List.sum_append,
      ihl (lv + 1) (fun p hp => hb p (List.mem_append_left _ hp)) hlv1,
      ihr (lv + 1) (fun p hp => hb p (List.mem_append_right _ hp)) hlv1]
    have hsplit : M - lv = (M - (lv + 1)) + 1 := by omega
    rw [hsplit, pow_succ']
    omega

theorem leavesOfQ_of_leaves (used : List Nat) (f : Nat → Nat) :
    leavesOfQ (used.map (fun s => (f s, HTree.leaf s))) = used := by
  induction used with
  | nil => rfl
  | cons s rest ih =>
    show s :: leavesOfQ (rest.map (fun s => (f s, HTree.leaf s))) = s :: rest
    rw [ih]

/-! ### Assembling the per-symbol table -/

theorem lookupD_not_mem {l : List (Nat × Nat)} {i : Nat}
    (h : i ∉ l.map Prod.fst) : lookupD l i = 0 := by
  induction l with
  | nil => rfl
  | cons p rest ih =>
    obtain ⟨k, v⟩ := p
    have hk : k ≠ i := by
      intro hc
      exact h (by rw [hc]; exact List.mem_cons_self _ _)
    show (if k = i then v else lookupD rest i) = 0
    rw [if_neg hk]
    exact ih (fun hc => h (List.mem_cons_of_mem _ hc))

theorem lookupD_zip_nodup :
    ∀ (S D : List Nat), S.Nodup → S.length = D.length →
      ∀ p ∈ S.zip D, lookupD (S.zip D) p.1 = p.2 := by
  intro S
  induction S with
  | nil => intro D _ _ p hp; simp at hp
  | cons s S' ih =>
    intro D hnd hlen p hp
    cases D with
    | nil => simp at hlen
    | cons d D' =>
      rw [List.zip_cons_cons] at hp
      rcases List.mem_cons.mp hp with rfl | hm
      · show (if s = s then d else _) = d
        rw [if_pos rfl]
      · have hp1 : p.1 ∈ S' := ((List.of_mem_zip hm).1)
        have hs : s ≠ p.1 := by
          intro hc
          rw [hc] at hnd
          exact (List.nodup_cons.mp hnd).1 hp1
        show (if s = p.1 then d else lookupD (S'.zip D') p.1) = p.2
        rw [if_neg hs]
        exact ih D' (List.nodup_cons.mp hnd).2 (by simpa using hlen) p hm

theorem mem_zip_of_mem_left :
    ∀ (S D : List Nat), S.length = D.length → ∀ s ∈ S, ∃ d, (s, d) ∈ S.zip D := by
  intro S
  induction S with
  | nil => intro D _ s hs; cases hs
  | cons s0 S' ih =>
    intro D hlen s hs
    cases D with
    | nil => simp at hlen
    | cons d0 D' =>
      rw [List.zip_cons_cons]
      rcases List.mem_cons.mp hs with rfl | hm
      · exact ⟨d0, List.mem_cons_self _ _⟩
      · obtain ⟨d, hd⟩ := ih D' (by simpa using hlen) s hm
        exact ⟨d, List.mem_cons_of_mem _ hd⟩

theorem kraftL_def (ds : List Nat) :
    kraftL ds = (ds.map (fun d : Nat => (2 : ℚ) ^ (-(d : ℤ)))).sum := rfl

theorem kraftL_cons (d : Nat) (t : List Nat) :
    kraftL (d :: t) = (2 : ℚ) ^ (-(d : ℤ)) + kraftL t := rfl

theorem kraftL_mul_pow (M : Nat) :
    ∀ ds : List Nat, (∀ d ∈ ds, d ≤ M) →
      kraftL ds * 2 ^ M = (natKraft M ds : ℚ) := by
  intro ds
  induction ds with
  | nil =>
    intro _
    show (0 : ℚ) * 2 ^ M = ((0 : ℕ) : ℚ)
    simp
  | cons d t ih =>
    intro h
    have hd : d ≤ M := h d (List.mem_cons_self d t)
    rw [kraftL_cons, natKraft_cons, add_mul,
      ih (fun x hx => h x (List.mem_cons_of_mem d hx))]
    push_cast
    have hterm : (2 : ℚ) ^ (-(d : ℤ)) * 2 ^ M = 2 ^ (M - d) := by
      have h1 : (2 : ℚ) ^ (M - d) * (2 : ℚ) ^ d = (2 : ℚ) ^ M := by
        rw [← pow_add]
        congr 1
        omega
      have h2 : (2 : ℚ) ^ (-(d : ℤ)) = ((2 : ℚ) ^ (d : ℕ))⁻¹ := by
        rw [zpow_neg, zpow_natCast]
      rw [h2, inv_mul_eq_div, div_eq_iff (pow_ne_zero _ (two_ne_zero))]
      linarith [h1]
    rw [hterm]

theorem measureL_le_sum (L : Nat) (ds : List Nat) : measureL L ds ≤ ds.sum := by
  rw [measureL_eq]
  calc (ds.map (fun d => d - L)).sum ≤ (ds.map id).sum :=
        List.sum_le_sum (fun i _ => Nat.sub_le i L)
    _ = ds.sum := by rw [List.map_id]

theorem usedIdx_nodup (data : List Nat) : (usedIdx data).Nodup :=
  (List.nodup_range data.length).filter _

/-- The per-symbol depth table assembled by zipping the (nodup) symbol list
with the finalized depth list: lengths, bounds at used and unused symbols,
and the exact Kraft sum. -/
theorem table_facts (data : List Nat) (L M0 : Nat) (S Dfin depth : List Nat)
    (hdepth : depth =
      (List.range data.length).map (fun i => lookupD (S.zip Dfin) i))
    (hSperm : S.Perm (usedIdx data)) (hSnodup : S.Nodup)
    (hlen : S.length = Dfin.length)
    (hfin1 : ∀ d ∈ Dfin, 1 ≤ d) (hfinL : ∀ d ∈ Dfin, d ≤ L)
    (hfinM0 : ∀ d ∈ Dfin, d ≤ M0) (hfinK : natKraft M0 Dfin = 2 ^ M0) :
    depth.length = data.length ∧
    (∀ i < data.length, data.getD i 0 ≠ 0 →
      1 ≤ depth.getD i 0 ∧ depth.getD i 0 ≤ L) ∧
    (∀ i < data.length, data.getD i 0 = 0 → depth.getD i 0 = 0) ∧
    kraftSum data depth = 1 := by
  subst hdepth
  refine ⟨by simp, ?_, ?_, ?_⟩
  · intro i hi hnz
    have hiu : i ∈ usedIdx data := mem_usedIdx.mpr ⟨hi, hnz⟩
    have hiS : i ∈ S := hSperm.mem_iff.mpr hiu
    obtain ⟨d, hd⟩ := mem_zip_of_mem_left S Dfin hlen i hiS
    have hval := lookupD_zip_nodup S Dfin hSnodup hlen (i, d) hd
    have hdD : d ∈ Dfin := (List.of_mem_zip hd).2
    rw [getD_map_range _ _ _ hi]
    dsimp only at hval
    rw [hval]
    exact ⟨hfin1 d hdD, hfinL d hdD⟩
  · intro i hi hz
    have hiu : i ∉ usedIdx data := fun hc => (mem_usedIdx.mp hc).2 hz
    have hiS : i ∉ S := fun hc => hiu (hSperm.mem_iff.mp hc)
    rw [getD_map_range _ _ _ hi]
    apply lookupD_not_mem
    rw [List.map_fst_zip S Dfin (le_of_eq hlen)]
    exact hiS
  · unfold kraftSum
    have step_a : (usedIdx data).map (fun i => (2 : ℚ) ^
        (-(((List.range data.length).map
          (fun i => lookupD (S.zip Dfin) i)).getD i 0 : ℤ))) =
        (usedIdx data).map
          (fun i => (2 : ℚ) ^ (-(lookupD (S.zip Dfin) i : ℤ))) := by
      apply List.map_congr_left
      intro i hi
      rw [getD_map_range _ _ _ (mem_usedIdx.mp hi).1]
    rw [step_a]
    have step_b : ((usedIdx data).map
        (fun i => (2 : ℚ) ^ (-(lookupD (S.zip Dfin) i : ℤ)))).sum =
        (S.map (fun i => (2 : ℚ) ^ (-(lookupD (S.zip Dfin) i : ℤ)))).sum :=
      ((hSperm.symm).map _).sum_eq
    rw [step_b]
    have hfstzip : (S.zip Dfin).map Prod.fst = S :=
      List.map_fst_zip S Dfin (le_of_eq hlen)
    have step_c : (S.map (fun i => (2 : ℚ) ^ (-(lookupD (S.zip Dfin) i : ℤ)))).sum =
        ((S.zip Dfin).map
          ((fun i => (2 : ℚ) ^ (-(lookupD (S.zip Dfin) i : ℤ))) ∘ Prod.fst)).sum := by
      conv_rhs => rw [← List.map_map, hfstzip]
    rw [step_c]
    have step_d : (S.zip Dfin).map
        ((fun i => (2 : ℚ) ^ (-(lookupD (S.zip Dfin) i : ℤ))) ∘ Prod.fst) =
        (S.zip Dfin).map (fun p => (2 : ℚ) ^ (-(p.2 : ℤ))) := by
      apply List.map_congr_left
      intro p hp
      show (2 : ℚ) ^ (-(lookupD (S.zip Dfin) p.1 : ℤ)) = _
      rw [lookupD_zip_nodup S Dfin hSnodup hlen p hp]
    rw [step_d]
    have step_e : (S.zip Dfin).map (fun p => (2 : ℚ) ^ (-(p.2 : ℤ))) =
        Dfin.map (fun d : Nat => (2 : ℚ) ^ (-(d : ℤ))) := by
      have hm := List.map_map (fun d : Nat => (2 : ℚ) ^ (-(d : ℤ)))
        Prod.snd (S.zip Dfin)
      rw [List.map_snd_zip S Dfin (le_of_eq hlen.symm)] at hm
      exact hm.symm
    rw [step_e]
    have h1 := kraftL_mul_pow M0 Dfin hfinM0
    rw [hfinK] at h1
    have hpow_ne : ((2 : ℚ) ^ M0) ≠ 0 := pow_ne_zero _ two_ne_zero
    have h2 : kraftL Dfin * 2 ^ M0 = 1 * 2 ^ M0 := by
      rw [h1]
      push_cast
      ring
    rw [← kraftL_def]
    exact mul_right_cancel₀ hpow_ne h2

theorem mem_zip_of_mem_right :
    ∀ (S D : List Nat), S.length = D.length → ∀ d ∈ D, ∃ s, (s, d) ∈ S.zip D := by
  intro S
  induction S with
  | nil =>
    intro D hlen d hd
    cases D with
    | nil => cases hd
    | cons a b => simp at hlen
  | cons s0 S' ih =>
    intro D hlen d hd
    cases D with
    | nil => cases hd
    | cons d0 D' =>
      rw [List.zip_cons_cons]
      rcases List.mem_cons.mp hd with rfl | hm
      · exact ⟨s0, List.mem_cons_self _ _⟩
      · obtain ⟨s, hs⟩ := ih D' (by simpa using hlen) d hm
        exact ⟨s, List.mem_cons_of_mem _ hs⟩

/-- If every entry of the assembled table is at most `t2`, so is every
finalized depth. -/
theorem table_fit_back (data : List Nat) (S Dfin d1 : List Nat) (t2 : Nat)
    (hd1 : d1 = (List.range data.length).map (fun i => lookupD (S.zip Dfin) i))
    (hSperm : S.Perm (usedIdx data)) (hSnodup : S.Nodup)
    (hlen : S.length = Dfin.length)
    (hfit : ∀ i < data.length, d1.getD i 0 ≤ t2) :
    ∀ d ∈ Dfin, d ≤ t2 := by
  intro d hd
  obtain ⟨s, hs⟩ := mem_zip_of_mem_right S Dfin hlen d hd
  have hsS : s ∈ S := (List.of_mem_zip hs).1
  have hsu : s ∈ usedIdx data := hSperm.mem_iff.mp hsS
  have hsn : s < data.length := (mem_usedIdx.mp hsu).1
  have hval := lookupD_zip_nodup S Dfin hSnodup hlen (s, d) hs
  have := hfit s hsn
  rw [hd1, getD_map_range _ _ _ hsn] at this
  dsimp only at hval
  rw [hval] at this
  exact this

/-! ### Serializer round-trip lemmas -/

theorem split_countLeading (v : Nat) (l : List Nat) :
    l = List.replicate (countLeading v l) v ++ l.drop (countLeading v l) := by
  induction l with
  | nil => rfl
  | cons d rest ih =>
    unfold countLeading
    by_cases hv : d = v
    · rw [if_pos hv]
      subst hv
      calc d :: rest
          = d :: (List.replicate (countLeading d rest) d ++
              rest.drop (countLeading d rest)) := by rw [← ih]
        _ = _ := by rw [List.replicate_succ]; rfl
    · rw [if_neg hv]
      rfl

theorem decode_cons (t e : Nat) (rest : List (Nat × Nat)) (p : Nat) :
    DecodeHuffmanTree ((t, e) :: rest) p =
      if t ≤ 15 then t :: DecodeHuffmanTree rest t
      else if t = 16 then List.replicate (e + 3) p ++ DecodeHuffmanTree rest p
      else if t = 17 then List.replicate (e + 3) 0 ++ DecodeHuffmanTree rest 0
      else List.replicate (e + 11) 0 ++ DecodeHuffmanTree rest 0 := rfl

theorem decode_replicate_lit (d : Nat) (hd : d ≤ 15) (r : Nat)
    (ts : List (Nat × Nat)) (p : Nat) (hr : 1 ≤ r) :
    DecodeHuffmanTree (List.replicate r (d, 0) ++ ts) p =
      List.replicate r d ++ DecodeHuffmanTree ts d := by
  induction r generalizing p with
  | zero => omega
  | succ r0 ih =>
    rw [List.replicate_succ, List.cons_append, decode_cons, if_pos hd]
    rcases Nat.eq_zero_or_pos r0 with hr0 | hr0
    · subst hr0
      rfl
    · rw [ih d hr0, List.replicate_succ, List.cons_append]

theorem decode_emitZeroRunF (fuel : Nat) :
    ∀ r, r ≤ fuel → 1 ≤ r → ∀ (ts : List (Nat × Nat)) (p : Nat),
      DecodeHuffmanTree (emitZeroRunF fuel r ++ ts) p =
        List.replicate r 0 ++ DecodeHuffmanTree ts 0 := by
  induction fuel with
  | zero => intro r hr h1; omega
  | succ f ih =>
    intro r hr h1 ts p
    unfold emitZeroRunF
    rw [if_neg (by omega)]
    by_cases h3 : r < 3
    · rw [if_pos h3]
      exact decode_replicate_lit 0 (by omega) r ts p h1
    · rw [if_neg h3]
      by_cases h10 : r ≤ 10
      · rw [if_pos h10, List.cons_append, decode_cons,
          if_neg (by omega), if_neg (by omega), if_pos rfl,
          show r - 3 + 3 = r from by omega, List.nil_append]
      · rw [if_neg h10]
        by_cases h138 : r ≤ 138
        · rw [if_pos h138, List.cons_append, decode_cons,
            if_neg (by omega), if_neg (by omega), if_neg (by omega),
            show r - 11 + 11 = r from by omega, List.nil_append]
        · rw [if_neg h138, List.cons_append, decode_cons,
            if_neg (by omega), if_neg (by omega), if_neg (by omega)]
          rw [ih (r - 138) (by omega) (by omega) ts 0]
          rw [show (127 : Nat) + 11 = 138 from rfl,
            show r = 138 + (r - 138) from by omega, List.replicate_add]
          rw [List.append_assoc, show 138 + (r - 138) - 138 = r - 138 from by omega]

theorem decode_emitRepRunF (d : Nat) (hd : d ≤ 15) (fuel : Nat) :
    ∀ r, r ≤ fuel → ∀ ts : List (Nat × Nat),
      DecodeHuffmanTree (emitRepRunF d fuel r ++ ts) d =
        List.replicate r d ++ DecodeHuffmanTree ts d := by
  induction fuel with
  | zero =>
    intro r hr ts
    have : r = 0 := by omega
    subst this
    rfl
  | succ f ih =>
    intro r hr ts
    unfold emitRepRunF
    by_cases h0 : r = 0
    · subst h0
      rw [if_pos rfl]
      rfl
    · rw [if_neg h0]
      by_cases h3 : r < 3
      · rw [if_pos h3]
        exact decode_replicate_lit d hd r ts d (by omega)
      · rw [if_neg h3]
        by_cases h6 : r ≤ 6
        · rw [if_pos h6, List.cons_append, decode_cons,
            if_neg (by omega), if_pos rfl, show r - 3 + 3 = r from by omega,
            List.nil_append]
        · rw [if_neg h6, List.cons_append, decode_cons,
            if_neg (by omega), if_pos rfl]
          rw [ih (r - 6) (by omega) ts]
          rw [show (3 : Nat) + 3 = 6 from rfl,
            show r = 6 + (r - 6) from by omega, List.replicate_add]
          rw [List.append_assoc, show 6 + (r - 6) - 6 = r - 6 from by omega]

theorem decode_writeHTF (fuel : Nat) :
    ∀ l : List Nat, l.length ≤ fuel → (∀ d ∈ l, d ≤ 15) → ∀ p : Nat,
      DecodeHuffmanTree (writeHTF fuel l) p = l := by
  induction fuel with
  | zero =>
    intro l hl hd p
    have : l = [] := List.length_eq_zero.mp (by omega)
    subst this
    rfl
  | succ f ih =>
    intro l hl hd p
    cases l with
    | nil => rfl
    | cons d rest =>
      show DecodeHuffmanTree
        (if d = 0 then emitZeroRun (countLeading d rest + 1) ++
            writeHTF f (rest.drop (countLeading d rest))
          else ((d, 0) :: emitRepRun d (countLeading d rest)) ++
            writeHTF f (rest.drop (countLeading d rest))) p = d :: rest
      have hdrop : (rest.drop (countLeading d rest)).length ≤ f := by
        rw [List.length_drop]
        have := List.length_cons d rest ▸ hl
        omega
      have hdmem : ∀ x ∈ rest.drop (countLeading d rest), x ≤ 15 :=
        fun x hx => hd x (List.mem_cons_of_mem d (List.drop_subset _ rest hx))
      by_cases h0 : d = 0
      · rw [if_pos h0]
        subst h0
        unfold emitZeroRun
        rw [decode_emitZeroRunF _ _ (le_refl _) (by omega) _ p,
          ih _ hdrop hdmem 0]
        calc List.replicate (countLeading 0 rest + 1) 0 ++
              rest.drop (countLeading 0 rest)
            = 0 :: (List.replicate (countLeading 0 rest) 0 ++
              rest.drop (countLeading 0 rest)) := by rw [List.replicate_succ]; rfl
          _ = 0 :: rest := by rw [← split_countLeading 0 rest]
      · rw [if_neg h0, List.cons_append]
        have hd15 : d ≤ 15 := hd d (List.mem_cons_self d rest)
        show DecodeHuffmanTree ((d, 0) :: (emitRepRun d (countLeading d rest) ++
          writeHTF f (rest.drop (countLeading d rest)))) p = d :: rest
        unfold DecodeHuffmanTree
        rw [if_pos hd15]
        unfold emitRepRun
        rw [decode_emitRepRunF d hd15 _ _ (le_refl _), ih _ hdrop hdmem d]
        rw [← split_countLeading d rest]

/-- C4: serialize/parse round-trip — for every depth table over the token
alphabet's depth range 0–15 (including all-zero and single-symbol tables),
decoding the token sequence and extra-bits pairs produced by
`WriteHuffmanTree` with the matching decoder reconstructs exactly the
original depth table. -/
theorem claim_C4_roundtrip (depth : List Nat) (hd : ∀ d ∈ depth, d ≤ 15) :
    DecodeHuffmanTree (WriteHuffmanTree depth) 0 = depth :=
  decode_writeHTF depth.length depth (le_refl _) hd 0

/-- Witness for C4: the all-zero table, a single-symbol table, and a table
with long runs all round-trip. -/
theorem claim_C4_witness :
    DecodeHuffmanTree (WriteHuffmanTree [0, 0, 0]) 0 = [0, 0, 0] ∧
    DecodeHuffmanTree (WriteHuffmanTree [1]) 0 = [1] ∧
    DecodeHuffmanTree (WriteHuffmanTree
        [5, 5, 5, 5, 5, 5, 5, 5, 5, 0, 0, 1]) 0 =
      [5, 5, 5, 5, 5, 5, 5, 5, 5, 0, 0, 1] :=
  ⟨claim_C4_roundtrip [0, 0, 0] (by decide),
   claim_C4_roundtrip [1] (by decide),
   claim_C4_roundtrip _ (by decide)⟩

/-! ### Canonical code assignment: ordering and prefix-freeness -/

theorem pairwise_const {α : Type} {R : α → α → Prop} (h : ∀ a b, R a b) :
    ∀ l : List α, l.Pairwise R := by
  intro l
  induction l with
  | nil => exact List.Pairwise.nil
  | cons a t ih => exact List.Pairwise.cons (fun b _ => h a b) ih

theorem pairwise_mem_or {α : Type} {R : α → α → Prop} :
    ∀ {l : List α}, l.Pairwise R →
      ∀ {a b : α}, a ∈ l → b ∈ l → a = b ∨ R a b ∨ R b a := by
  intro l
  induction l with
  | nil => intro _ a b ha; cases ha
  | cons x t ih =>
    intro hp a b ha hb
    obtain ⟨hx, ht⟩ := List.pairwise_cons.mp hp
    rcases List.mem_cons.mp ha with rfl | hat
    · rcases List.mem_cons.mp hb with rfl | hbt
      · exact Or.inl rfl
      · exact Or.inr (Or.inl (hx b hbt))
    · rcases List.mem_cons.mp hb with rfl | hbt
      · exact Or.inr (Or.inr (hx a hat))
      · exact ih ht hat hbt

theorem getD_mem {l : List Nat} {i : Nat} (h : i < l.length) :
    l.getD i 0 ∈ l := by
  rw [List.getD_eq_getElem l 0 h]
  exact List.getElem_mem h

theorem mem_symbolsAtDepth {depth : List Nat} {d s : Nat} :
    s ∈ symbolsAtDepth depth d ↔ s < depth.length ∧ depth.getD s 0 = d := by
  unfold symbolsAtDepth
  rw [List.mem_filter, List.mem_range]
  simp

theorem mem_canonicalSeq {depth : List Nat} {p : Nat × Nat} :
    p ∈ canonicalSeq depth ↔
      p.1 < depth.length ∧ depth.getD p.1 0 = p.2 ∧ 1 ≤ p.2 := by
  unfold canonicalSeq
  rw [List.mem_flatten]
  constructor
  · rintro ⟨chunk, hchunk, hp⟩
    obtain ⟨d, hd, rfl⟩ := List.mem_map.mp hchunk
    obtain ⟨s, hs, rfl⟩ := List.mem_map.mp hp
    obtain ⟨hslen, hsd⟩ := mem_symbolsAtDepth.mp hs
    exact ⟨hslen, hsd, by omega⟩
  · rintro ⟨hlen, hval, hpos⟩
    refine ⟨(symbolsAtDepth depth p.2).map (fun s => (s, p.2)), ?_, ?_⟩
    · apply List.mem_map.mpr
      refine ⟨p.2 - 1, ?_, ?_⟩
      · apply List.mem_range.mpr
        have hmem : depth.getD p.1 0 ∈ depth := getD_mem hlen
        have := le_maxD_of_mem hmem
        omega
      · rw [show p.2 - 1 + 1 = p.2 from by omega]
    · apply List.mem_map.mpr
      exact ⟨p.1, mem_symbolsAtDepth.mpr ⟨hlen, hval⟩, by
        show (p.1, p.2) = p
        rfl⟩

theorem canonicalSeq_pairwise (depth : List Nat) :
    (canonicalSeq depth).Pairwise
      (fun a b : Nat × Nat => a.2 ≤ b.2 ∧ a.1 ≠ b.1) := by
  unfold canonicalSeq
  rw [List.pairwise_flatten]
  constructor
  · intro chunk hchunk
    obtain ⟨d, _, rfl⟩ := List.mem_map.mp hchunk
    rw [List.pairwise_map]
    have hnd : (symbolsAtDepth depth (d + 1)).Pairwise (· ≠ ·) :=
      ((List.nodup_range depth.length).filter _)
    exact hnd.imp (fun hab => ⟨le_refl _, hab⟩)
  · rw [List.pairwise_map]
    apply (List.pairwise_lt_range (maxD depth)).imp
    intro d1 d2 h12 p hp q hq
    obtain ⟨s1, hs1, rfl⟩ := List.mem_map.mp hp
    obtain ⟨s2, hs2, rfl⟩ := List.mem_map.mp hq
    refine ⟨by omega, ?_⟩
    intro hc
    dsimp only at hc
    have h1 := (mem_symbolsAtDepth.mp hs1).2
    have h2 := (mem_symbolsAtDepth.mp hs2).2
    rw [hc, h2] at h1
    omega

theorem assignCodes_skeleton :
    ∀ (l : List (Nat × Nat)) (c0 d0 : Nat),
      (assignCodes c0 d0 l).map (fun e => (e.1, e.2.1)) = l := by
  intro l
  induction l with
  | nil => intro c0 d0; rfl
  | cons p rest ih =>
    intro c0 d0
    obtain ⟨s, d⟩ := p
    show (s, d) :: (assignCodes _ d rest).map (fun e => (e.1, e.2.1)) = (s, d) :: rest
    rw [ih]

theorem entries_skeleton (depth : List Nat) :
    (huffmanCodeEntries depth).map (fun e => (e.1, e.2.1)) = canonicalSeq depth := by
  unfold huffmanCodeEntries
  rcases hc : canonicalSeq depth with _ | ⟨⟨s, d⟩, rest⟩
  · rfl
  · show (s, d) :: (assignCodes 0 d rest).map (fun e => (e.1, e.2.1)) = _
    rw [assignCodes_skeleton]

theorem assignCodes_chain :
    ∀ (l : List (Nat × Nat)) (c0 d0 : Nat),
      l.Pairwise (fun a b : Nat × Nat => a.2 ≤ b.2) →
      (∀ p ∈ l, d0 ≤ p.2) →
      (∀ e ∈ assignCodes c0 d0 l, d0 ≤ e.2.1 ∧ c0 < e.2.2 / 2 ^ (e.2.1 - d0)) ∧
      (assignCodes c0 d0 l).Pairwise (fun e1 e2 : Nat × Nat × Nat =>
        e1.2.1 ≤ e2.2.1 ∧ e1.2.2 < e2.2.2 / 2 ^ (e2.2.1 - e1.2.1)) := by
  intro l
  induction l with
  | nil => intro c0 d0 _ _; exact ⟨fun e he => absurd he (List.not_mem_nil e), List.Pairwise.nil⟩
  | cons p rest ih =>
    intro c0 d0 hsort hge
    obtain ⟨s, d⟩ := p
    obtain ⟨hhead, htail⟩ := List.pairwise_cons.mp hsort
    have hd0d : d0 ≤ d := hge (s, d) (List.mem_cons_self _ _)
    have hrest_ge : ∀ q ∈ rest, d ≤ q.2 := fun q hq => hhead q hq
    obtain ⟨ih1, ih2⟩ := ih ((c0 + 1) * 2 ^ (d - d0)) d htail hrest_ge
    have hBpos : 0 < 2 ^ (d - d0) := Nat.pos_pow_of_pos _ (by norm_num)
    have hself : ((c0 + 1) * 2 ^ (d - d0)) / 2 ^ (d - d0) = c0 + 1 :=
      Nat.mul_div_cancel _ hBpos
    have hstep : ∀ e ∈ assignCodes ((c0 + 1) * 2 ^ (d - d0)) d rest,
        d0 ≤ e.2.1 ∧ c0 < e.2.2 / 2 ^ (e.2.1 - d0) := by
      intro e he
      obtain ⟨hde, hce⟩ := ih1 e he
      refine ⟨le_trans hd0d hde, ?_⟩
      have hsplit : e.2.2 / 2 ^ (e.2.1 - d0) =
          (e.2.2 / 2 ^ (e.2.1 - d)) / 2 ^ (d - d0) := by
        rw [Nat.div_div_eq_div_mul, ← Nat.pow_add,
          show e.2.1 - d + (d - d0) = e.2.1 - d0 from by omega]
      rw [hsplit]
      have h1 : (c0 + 1) * 2 ^ (d - d0) + 1 ≤ e.2.2 / 2 ^ (e.2.1 - d) := hce
      have h2 : ((c0 + 1) * 2 ^ (d - d0)) / 2 ^ (d - d0) ≤
          (e.2.2 / 2 ^ (e.2.1 - d)) / 2 ^ (d - d0) :=
        Nat.div_le_div_right (by omega)
      rw [hself] at h2
      omega
    constructor
    · intro e he
      rcases List.mem_cons.mp he with rfl | het
      · exact ⟨hd0d, by
          show c0 < (c0 + 1) * 2 ^ (d - d0) / 2 ^ (d - d0)
          rw [hself]
          omega⟩
      · exact hstep e het
    · refine List.Pairwise.cons ?_ ih2
      intro e he
      obtain ⟨hde, hce⟩ := ih1 e he
      exact ⟨hde, by
        show (c0 + 1) * 2 ^ (d - d0) < e.2.2 / 2 ^ (e.2.1 - d)
        omega⟩

theorem entries_pairwise (depth : List Nat) :
    (huffmanCodeEntries depth).Pairwise (fun e1 e2 : Nat × Nat × Nat =>
      e1.2.1 ≤ e2.2.1 ∧ e1.2.2 < e2.2.2 / 2 ^ (e2.2.1 - e1.2.1)) := by
  unfold huffmanCodeEntries
  have hsorted : (canonicalSeq depth).Pairwise
      (fun a b : Nat × Nat => a.2 ≤ b.2) :=
    (canonicalSeq_pairwise depth).imp (fun h => h.1)
  rcases hc : canonicalSeq depth with _ | ⟨⟨s, d⟩, rest⟩
  · exact List.Pairwise.nil
  · rw [hc] at hsorted
    obtain ⟨hhead, htail⟩ := List.pairwise_cons.mp hsorted
    obtain ⟨h1, h2⟩ := assignCodes_chain rest 0 d htail
      (fun q hq => hhead q hq)
    refine List.Pairwise.cons ?_ h2
    intro e he
    obtain ⟨hde, hce⟩ := h1 e he
    refine ⟨hde, ?_⟩
    show 0 < e.2.2 / 2 ^ (e.2.1 - d)
    omega

theorem canonicalSeq_fst_nodup (depth : List Nat) :
    ((canonicalSeq depth).map Prod.fst).Nodup := by
  have h := (canonicalSeq_pairwise depth).imp
    (fun hab => hab.2)
  exact List.pairwise_map.mpr h

theorem lookupD_assoc_nodup :
    ∀ l : List (Nat × Nat), (l.map Prod.fst).Nodup →
      ∀ p ∈ l, lookupD l p.1 = p.2 := by
  intro l
  induction l with
  | nil => intro _ p hp; cases hp
  | cons q rest ih =>
    intro hnd p hp
    obtain ⟨k, v⟩ := q
    rw [List.map_cons, List.nodup_cons] at hnd
    rcases List.mem_cons.mp hp with rfl | hm
    · show (if k = k then v else lookupD rest k) = v
      rw [if_pos rfl]
    · have hk : k ≠ p.1 := by
        intro hc
        apply hnd.1
        have hmm : p.1 ∈ rest.map Prod.fst := List.mem_map_of_mem Prod.fst hm
        rw [← hc] at hmm
        exact hmm
      show (if k = p.1 then v else lookupD rest p.1) = p.2
      rw [if_neg hk]
      exact ih hnd.2 p hm

/-- C3: canonical codes are assigned by ordering used symbols by (ascending
depth, ascending symbol index), the first code being 0 and each subsequent
code (previous code + 1) shifted left by the depth difference (this is the
definition of `huffmanCodeEntries`), and the resulting codes form a valid
prefix code: for every depth table, no used symbol's code is a prefix of
another used symbol's code. -/
theorem claim_C3_prefix_free (depth : List Nat) (i j : Nat)
    (hi : i < depth.length) (hj : j < depth.length) (hij : i ≠ j)
    (hiu : depth.getD i 0 ≠ 0) (hju : depth.getD j 0 ≠ 0) :
    ¬ IsPrefixOf (depth.getD i 0) ((ConvertBitDepthsToSymbols depth).getD i 0)
      (depth.getD j 0) ((ConvertBitDepthsToSymbols depth).getD j 0) := by
  have hex : ∀ s, s < depth.length → depth.getD s 0 ≠ 0 →
      ∃ c, (s, depth.getD s 0, c) ∈ huffmanCodeEntries depth ∧
        (ConvertBitDepthsToSymbols depth).getD s 0 = c := by
    intro s hs hsu
    have hcs : ((s : Nat), depth.getD s 0) ∈ canonicalSeq depth :=
      mem_canonicalSeq.mpr ⟨hs, rfl, by omega⟩
    rw [← entries_skeleton] at hcs
    obtain ⟨e, he, heq⟩ := List.mem_map.mp hcs
    obtain ⟨a, b, c⟩ := e
    obtain ⟨ha, hb⟩ := Prod.mk.inj heq
    dsimp only at ha hb
    refine ⟨c, ?_, ?_⟩
    · rw [← hb, ← ha]
      exact he
    · unfold ConvertBitDepthsToSymbols
      rw [getD_map_range _ _ _ hs]
      have hkeys : (((huffmanCodeEntries depth).map
          (fun e => (e.1, e.2.2))).map Prod.fst).Nodup := by
        rw [List.map_map]
        have h2 := canonicalSeq_fst_nodup depth
        rw [← entries_skeleton depth, List.map_map] at h2
        exact h2
      have hmem : ((s : Nat), c) ∈ (huffmanCodeEntries depth).map
          (fun e => (e.1, e.2.2)) :=
        List.mem_map.mpr ⟨(a, b, c), he, by dsimp only; rw [ha]⟩
      exact lookupD_assoc_nodup _ hkeys (s, c) hmem
  obtain ⟨ci, hei, hbi⟩ := hex i hi hiu
  obtain ⟨cj, hej, hbj⟩ := hex j hj hju
  rw [hbi, hbj]
  have hneq : ((i : Nat), depth.getD i 0, ci) ≠ (j, depth.getD j 0, cj) := by
    intro hc
    exact hij (congrArg Prod.fst hc)
  rcases pairwise_mem_or (entries_pairwise depth) hei hej with hc | hR | hR
  · exact absurd hc hneq
  · intro hpre
    obtain ⟨hdd, hdiv⟩ := hpre
    obtain ⟨hR1, hR2⟩ := hR
    dsimp only at hR1 hR2
    omega
  · intro hpre
    obtain ⟨hdd, hdiv⟩ := hpre
    obtain ⟨hR1, hR2⟩ := hR
    dsimp only at hR1 hR2
    have hdeq : depth.getD i 0 = depth.getD j 0 := le_antisymm hdd hR1
    have hz1 : depth.getD j 0 - depth.getD i 0 = 0 := by omega
    have hz2 : depth.getD i 0 - depth.getD j 0 = 0 := by omega
    rw [hz1, pow_zero, Nat.div_one] at hdiv
    rw [hz2, pow_zero, Nat.div_one] at hR2
    omega

/-- Witness for C3 at the depth table [3, 3, 2, 1] (symbols 0 and 3). -/
theorem claim_C3_witness :
    ¬ IsPrefixOf (([3, 3, 2, 1] : List Nat).getD 0 0)
      ((ConvertBitDepthsToSymbols [3, 3, 2, 1]).getD 0 0)
      (([3, 3, 2, 1] : List Nat).getD 3 0)
      ((ConvertBitDepthsToSymbols [3, 3, 2, 1]).getD 3 0) :=
  claim_C3_prefix_free [3, 3, 2, 1] 0 3 (by norm_num) (by norm_num)
    (by norm_num) (by decide) (by decide)

/-- C1: for every weight vector with at least one nonzero count and every
tree_limit the call accepts, the depth table produced by `CreateHuffmanTree`
gives each used (nonzero-weight) symbol a depth in [1, tree_limit], gives
every zero-weight symbol depth 0, and satisfies Kraft's inequality: the sum
of 2^(−depth) over used symbols is at most 1, with equality whenever at
least two symbols are used. -/
theorem claim_C1_kraft (data : List Nat) (tree_limit : Nat) (depth : List Nat)
    (hok : CreateHuffmanTree data tree_limit = .ok depth)
    (hone : 1 ≤ (usedIdx data).length) :
    depth.length = data.length ∧
    (∀ i < data.length, data.getD i 0 ≠ 0 →
      1 ≤ depth.getD i 0 ∧ depth.getD i 0 ≤ tree_limit) ∧
    (∀ i < data.length, data.getD i 0 = 0 → depth.getD i 0 = 0) ∧
    kraftSum data depth ≤ 1 ∧
    (2 ≤ (usedIdx data).length → kraftSum data depth = 1) := by
  unfold CreateHuffmanTree at hok
  dsimp only at hok
  split at hok
  · cases hok
  split at hok
  · cases hok
  rename_i hcap hcfg
  rw [not_or] at hcfg
  obtain ⟨hL0, hcfg2⟩ := hcfg
  have hL1 : 1 ≤ tree_limit := Nat.one_le_iff_ne_zero.mpr hL0
  have hk2L : (usedIdx data).length ≤ 2 ^ tree_limit := by omega
  split at hok
  · rename_i hk0
    omega
  split at hok
  · -- exactly one used symbol: depth 1 for it, Kraft sum 1/2
    rename_i hk0 hk1
    obtain ⟨s, hs⟩ := List.length_eq_one.mp hk1
    have hdep : depth = (List.range data.length).map
        (fun i => lookupD ((usedIdx data).map (fun s => (s, 1))) i) :=
      (Except.ok.inj hok).symm
    have hsn : s < data.length := by
      have : s ∈ usedIdx data := by rw [hs]; exact List.mem_cons_self s []
      exact (mem_usedIdx.mp this).1
    have hgetD : ∀ i, i < data.length →
        depth.getD i 0 = if s = i then 1 else 0 := by
      intro i hi
      rw [hdep, getD_map_range _ _ _ hi, hs]
      rfl
    refine ⟨by rw [hdep]; simp, ?_, ?_, ?_, ?_⟩
    · intro i hi hnz
      have hiu : i ∈ usedIdx data := mem_usedIdx.mpr ⟨hi, hnz⟩
      rw [hs] at hiu
      have : i = s := by simpa using hiu
      subst this
      rw [hgetD i hi, if_pos rfl]
      omega
    · intro i hi hz
      have hiu : i ∉ usedIdx data := fun hc => (mem_usedIdx.mp hc).2 hz
      rw [hgetD i hi, if_neg]
      intro hc
      subst hc
      exact hiu (by rw [hs]; exact List.mem_cons_self _ _)
    · unfold kraftSum
      rw [hs]
      have h1 : depth.getD s 0 = 1 := by rw [hgetD s hsn, if_pos rfl]
      show (2 : ℚ) ^ (-(depth.getD s 0 : ℤ)) + 0 ≤ 1
      rw [h1]
      norm_num
    · intro h2
      rw [hs] at h2
      simp at h2
  · -- at least two used symbols: build the tree and limit the depths
    rename_i hk0 hk1
    have hk2 : 2 ≤ (usedIdx data).length := by omega
    split at hok
    · cases hok
    rename_i w t tr2 hbuild
    have hdep : depth = (List.range data.length).map
        (fun i => lookupD (((SetDepth t 0).map Prod.fst).zip
          (if maxD ((SetDepth t 0).map Prod.snd) ≤ tree_limit
            then (SetDepth t 0).map Prod.snd
            else limitLoop ((SetDepth t 0).map Prod.snd).sum tree_limit
              ((SetDepth t 0).map Prod.snd))) i) :=
      (Except.ok.inj hok).symm
    have hleaves : t.leavesL.Perm (usedIdx data) := by
      have h1 := buildLoop_leaves _ _ _ _ _ _ hbuild
      rw [leavesOfQ_of_leaves] at h1
      exact h1
    have hSperm : ((SetDepth t 0).map Prod.fst).Perm (usedIdx data) := by
      rw [SetDepth_fst]
      exact hleaves
    have hSnodup : ((SetDepth t 0).map Prod.fst).Nodup :=
      hSperm.symm.nodup (usedIdx_nodup data)
    have hSlen : ((SetDepth t 0).map Prod.fst).length = (usedIdx data).length :=
      hSperm.length_eq
    have hD1p : ∀ p ∈ SetDepth t 0, 1 ≤ p.2 := by
      cases t with
      | leaf s0 =>
        exfalso
        have := hleaves.length_eq
        simp [HTree.leavesL] at this
        omega
      | node l r =>
        intro p hp
        rcases List.mem_append.mp hp with hm | hm
        · exact SetDepth_level_le l 1 p hm
        · exact SetDepth_level_le r 1 p hm
    have hD1 : ∀ d ∈ (SetDepth t 0).map Prod.snd, 1 ≤ d := by
      intro d hd
      obtain ⟨p, hp, rfl⟩ := List.mem_map.mp hd
      exact hD1p p hp
    have hDM0 : ∀ d ∈ (SetDepth t 0).map Prod.snd,
        d ≤ maxD ((SetDepth t 0).map Prod.snd) :=
      fun d hd => le_maxD_of_mem hd
    have hkraftD : natKraft (maxD ((SetDepth t 0).map Prod.snd))
        ((SetDepth t 0).map Prod.snd) =
        2 ^ maxD ((SetDepth t 0).map Prod.snd) := by
      rw [natKraft_eq, List.map_map]
      have := natKraft_SetDepth (maxD ((SetDepth t 0).map Prod.snd)) t 0
        (fun p hp => le_maxD_of_mem (List.mem_map_of_mem Prod.snd hp))
        (Nat.zero_le _)
      rw [Nat.sub_zero] at this
      exact this
    have hDlen : ((SetDepth t 0).map Prod.fst).length =
        ((SetDepth t 0).map Prod.snd).length := by
      rw [List.length_map, List.length_map]
    have hDlen2 : ((SetDepth t 0).map Prod.snd).length =
        (usedIdx data).length := by
      rw [← hDlen]
      exact hSlen
    split at hdep
    · -- the unconstrained tree already fits the limit
      rename_i hmaxle
      obtain ⟨c1, c2, c3, c4⟩ := table_facts data tree_limit
        (maxD ((SetDepth t 0).map Prod.snd))
        ((SetDepth t 0).map Prod.fst) ((SetDepth t 0).map Prod.snd) depth
        hdep hSperm hSnodup hDlen hD1
        (fun d hd => le_trans (le_maxD_of_mem hd) hmaxle) hDM0 hkraftD
      exact ⟨c1, c2, c3, le_of_eq c4, fun _ => c4⟩
    · -- the depth limiter runs
      rename_i hmaxgt
      obtain ⟨q1, q2, q3, q4⟩ := limitLoop_spec tree_limit
        (maxD ((SetDepth t 0).map Prod.snd))
        ((SetDepth t 0).map Prod.snd).sum ((SetDepth t 0).map Prod.snd)
        (measureL_le_sum _ _) hL1 (by omega) (by omega) hD1 hDM0 hkraftD
      have hM0L : tree_limit ≤ maxD ((SetDepth t 0).map Prod.snd) := by omega
      obtain ⟨c1, c2, c3, c4⟩ := table_facts data tree_limit
        (maxD ((SetDepth t 0).map Prod.snd))
        ((SetDepth t 0).map Prod.fst)
        (limitLoop ((SetDepth t 0).map Prod.snd).sum tree_limit
          ((SetDepth t 0).map Prod.snd)) depth
        hdep hSperm hSnodup (by omega) q2 q3
        (fun d hd => le_trans (q3 d hd) hM0L) q4
      exact ⟨c1, c2, c3, le_of_eq c4, fun _ => c4⟩

/-- Witness for C1 at weights [1, 1, 2, 5] with tree_limit 15. -/
theorem claim_C1_witness :
    ([3, 3, 2, 1] : List Nat).length = ([1, 1, 2, 5] : List Nat).length ∧
    (∀ i < ([1, 1, 2, 5] : List Nat).length, [1, 1, 2, 5].getD i 0 ≠ 0 →
      1 ≤ ([3, 3, 2, 1] : List Nat).getD i 0 ∧
      ([3, 3, 2, 1] : List Nat).getD i 0 ≤ 15) ∧
    (∀ i < ([1, 1, 2, 5] : List Nat).length, [1, 1, 2, 5].getD i 0 = 0 →
      ([3, 3, 2, 1] : List Nat).getD i 0 = 0) ∧
    kraftSum [1, 1, 2, 5] [3, 3, 2, 1] ≤ 1 ∧
    (2 ≤ (usedIdx [1, 1, 2, 5]).length →
      kraftSum [1, 1, 2, 5] [3, 3, 2, 1] = 1) :=
  claim_C1_kraft [1, 1, 2, 5] 15 [3, 3, 2, 1] rfl (by decide)

/-- C9 counterexample: on weights [1, 1, 1, 3, 8, 20], decreasing the limit
from 4 to 3 strictly decreases the weighted total (and hence weighted
average, as the weights are fixed) code length: 74 < 75.  The claim that
decreasing `tree_limit` never decreases the weighted average code length is
false for the heuristic limiter. -/
theorem claim_C9_counterexample :
    CreateHuffmanTree [1, 1, 1, 3, 8, 20] 4 = .ok [4, 2, 4, 3, 2, 2] ∧
    CreateHuffmanTree [1, 1, 1, 3, 8, 20] 3 = .ok [3, 3, 3, 3, 2, 2] ∧
    weightedLength [1, 1, 1, 3, 8, 20] [3, 3, 3, 3, 2, 2] <
      weightedLength [1, 1, 1, 3, 8, 20] [4, 2, 4, 3, 2, 2] :=
  ⟨rfl, rfl, by decide⟩

/-- C9 (amended): for fixed weights and limits t1 ≥ t2, whenever the depth
table produced at the larger limit t1 already fits within the smaller limit
t2, the run at t2 produces the identical table, so decreasing the limit
leaves the weighted average code length unchanged (in particular it does
not decrease it).  Without that proviso the original monotonicity claim is
refuted by the counterexample. -/
theorem claim_C9_amended (data : List Nat) (t1 t2 : Nat) (d1 d2 : List Nat)
    (h1 : CreateHuffmanTree data t1 = .ok d1)
    (h2 : CreateHuffmanTree data t2 = .ok d2)
    (hle : t2 ≤ t1)
    (hfit : ∀ i < data.length, d1.getD i 0 ≤ t2) :
    d2 = d1 ∧ weightedLength data d2 = weightedLength data d1 := by
  suffices hdd : d2 = d1 by
    exact ⟨hdd, by rw [hdd]⟩
  unfold CreateHuffmanTree at h1 h2
  dsimp only at h1 h2
  split at h1
  · cases h1
  rename_i hcap
  rw [if_neg hcap] at h2
  split at h1
  · cases h1
  rename_i hcfg1
  split at h2
  · cases h2
  rename_i hcfg2
  rw [not_or] at hcfg1 hcfg2
  split at h1
  · rename_i hk0
    rw [if_pos hk0] at h2
    rw [← Except.ok.inj h1, ← Except.ok.inj h2]
  rename_i hk0
  rw [if_neg hk0] at h2
  split at h1
  · rename_i hk1
    rw [if_pos hk1] at h2
    rw [← Except.ok.inj h1, ← Except.ok.inj h2]
  rename_i hk1
  rw [if_neg hk1] at h2
  split at h1
  · cases h1
  rename_i w t tr2 hbuild
  rw [hbuild] at h2
  dsimp only at h2
  have hdep1 : d1 = (List.range data.length).map
      (fun i => lookupD (((SetDepth t 0).map Prod.fst).zip
        (if maxD ((SetDepth t 0).map Prod.snd) ≤ t1
          then (SetDepth t 0).map Prod.snd
          else limitLoop ((SetDepth t 0).map Prod.snd).sum t1
            ((SetDepth t 0).map Prod.snd))) i) :=
    (Except.ok.inj h1).symm
  have hdep2 : d2 = (List.range data.length).map
      (fun i => lookupD (((SetDepth t 0).map Prod.fst).zip
        (if maxD ((SetDepth t 0).map Prod.snd) ≤ t2
          then (SetDepth t 0).map Prod.snd
          else limitLoop ((SetDepth t 0).map Prod.snd).sum t2
            ((SetDepth t 0).map Prod.snd))) i) :=
    (Except.ok.inj h2).symm
  have hk2 : 2 ≤ (usedIdx data).length := by omega
  have hleaves : t.leavesL.Perm (usedIdx data) := by
    have hp := buildLoop_leaves _ _ _ _ _ _ hbuild
    rw [leavesOfQ_of_leaves] at hp
    exact hp
  have hSperm : ((SetDepth t 0).map Prod.fst).Perm (usedIdx data) := by
    rw [SetDepth_fst]
    exact hleaves
  have hSnodup : ((SetDepth t 0).map Prod.fst).Nodup :=
    hSperm.symm.nodup (usedIdx_nodup data)
  have hD1p : ∀ p ∈ SetDepth t 0, 1 ≤ p.2 := by
    cases t with
    | leaf s0 =>
      exfalso
      have := hleaves.length_eq
      simp [HTree.leavesL] at this
      omega
    | node l r =>
      intro p hp
      rcases List.mem_append.mp hp with hm | hm
      · exact SetDepth_level_le l 1 p hm
      · exact SetDepth_level_le r 1 p hm
  have hD1 : ∀ d ∈ (SetDepth t 0).map Prod.snd, 1 ≤ d := by
    intro d hd
    obtain ⟨p, hp, rfl⟩ := List.mem_map.mp hd
    exact hD1p p hp
  have hDM0 : ∀ d ∈ (SetDepth t 0).map Prod.snd,
      d ≤ maxD ((SetDepth t 0).map Prod.snd) :=
    fun d hd => le_maxD_of_mem hd
  have hkraftD : natKraft (maxD ((SetDepth t 0).map Prod.snd))
      ((SetDepth t 0).map Prod.snd) =
      2 ^ maxD ((SetDepth t 0).map Prod.snd) := by
    rw [natKraft_eq, List.map_map]
    have := natKraft_SetDepth (maxD ((SetDepth t 0).map Prod.snd)) t 0
      (fun p hp => le_maxD_of_mem (List.mem_map_of_mem Prod.snd hp))
      (Nat.zero_le _)
    rw [Nat.sub_zero] at this
    exact this
  have hDlen : ((SetDepth t 0).map Prod.fst).length =
      ((SetDepth t 0).map Prod.snd).length := by
    rw [List.length_map, List.length_map]
  have hDlen2 : ((SetDepth t 0).map Prod.snd).length =
      (usedIdx data).length := by
    rw [← hDlen]
    exact hSperm.length_eq
  have hDfin : (if maxD ((SetDepth t 0).map Prod.snd) ≤ t2
        then (SetDepth t 0).map Prod.snd
        else limitLoop ((SetDepth t 0).map Prod.snd).sum t2
          ((SetDepth t 0).map Prod.snd)) =
      (if maxD ((SetDepth t 0).map Prod.snd) ≤ t1
        then (SetDepth t 0).map Prod.snd
        else limitLoop ((SetDepth t 0).map Prod.snd).sum t1
          ((SetDepth t 0).map Prod.snd)) := by
    by_cases hm2 : maxD ((SetDepth t 0).map Prod.snd) ≤ t2
    · rw [if_pos hm2, if_pos (le_trans hm2 hle)]
    · rw [if_neg hm2]
      by_cases hm1 : maxD ((SetDepth t 0).map Prod.snd) ≤ t1
      · exfalso
        rw [if_pos hm1] at hdep1
        have hback := table_fit_back data ((SetDepth t 0).map Prod.fst)
          ((SetDepth t 0).map Prod.snd) d1 t2 hdep1 hSperm hSnodup hDlen hfit
        exact hm2 (maxD_le hback)
      · rw [if_neg hm1]
        rw [if_neg hm1] at hdep1
        obtain ⟨q1, q2, q3, q4⟩ := limitLoop_spec t1
          (maxD ((SetDepth t 0).map Prod.snd))
          ((SetDepth t 0).map Prod.snd).sum ((SetDepth t 0).map Prod.snd)
          (measureL_le_sum _ _) (by omega) (by omega) (by omega)
          hD1 hDM0 hkraftD
        have hfit1 : ∀ d ∈ limitLoop ((SetDepth t 0).map Prod.snd).sum t1
            ((SetDepth t 0).map Prod.snd), d ≤ t2 :=
          table_fit_back data ((SetDepth t 0).map Prod.fst)
            (limitLoop ((SetDepth t 0).map Prod.snd).sum t1
              ((SetDepth t 0).map Prod.snd)) d1 t2 hdep1 hSperm hSnodup
            (by omega) hfit
        exact limitLoop_congr t1 t2 (maxD ((SetDepth t 0).map Prod.snd))
          ((SetDepth t 0).map Prod.snd).sum ((SetDepth t 0).map Prod.snd)
          (by omega) hle (by omega) (by omega) hD1 hDM0 hkraftD hfit1
  rw [hdep2, hdep1, hDfin]

/-- Witness for C9 (amended) at weights [1, 1, 2, 5] with limits 15 and 10:
the table [3, 3, 2, 1] from limit 15 fits limit 10, and limit 10 reproduces
it exactly. -/
theorem claim_C9_witness :
    ([3, 3, 2, 1] : List Nat) = [3, 3, 2, 1] ∧
    weightedLength [1, 1, 2, 5] [3, 3, 2, 1] =
      weightedLength [1, 1, 2, 5] [3, 3, 2, 1] :=
  claim_C9_amended [1, 1, 2, 5] 15 10 [3, 3, 2, 1] [3, 3, 2, 1] rfl rfl
    (by norm_num) (by decide)

/-- C8: a weight vector with exactly one nonzero entry produces a depth
table assigning that symbol depth 1 (not 0) and every other symbol depth 0,
and the canonical code table holds exactly one entry, giving that symbol the
one-bit code 0. -/
theorem claim_C8_single_symbol (data : List Nat) (tree_limit : Nat)
    (s : Nat) (depth : List Nat)
    (hused : usedIdx data = [s])
    (hok : CreateHuffmanTree data tree_limit = .ok depth) :
    depth.getD s 0 = 1 ∧
    (∀ i < data.length, i ≠ s → depth.getD i 0 = 0) ∧
    huffmanCodeEntries depth = [(s, 1, 0)] ∧
    (ConvertBitDepthsToSymbols depth).getD s 0 = 0 := by
  have hs : s < data.length := by
    have : s ∈ usedIdx data := by rw [hused]; exact List.mem_cons_self s []
    exact (mem_usedIdx.mp this).1
  unfold CreateHuffmanTree at hok
  dsimp only at hok
  rw [hused] at hok
  split at hok
  · cases hok
  · split at hok
    · cases hok
    · rw [if_neg (by simp), if_pos (by simp)] at hok
      have hdep : depth =
          (List.range data.length).map (fun i => lookupD [(s, 1)] i) := by
        have := Except.ok.inj hok
        rw [← this]
        rfl
      have hlen : depth.length = data.length := by rw [hdep]; simp
      have hgetD : ∀ i, i < data.length →
          depth.getD i 0 = if s = i then 1 else 0 := by
        intro i hi
        rw [hdep, getD_map_range _ _ _ hi]
        rfl
      have h1 : depth.getD s 0 = 1 := by rw [hgetD s hs, if_pos rfl]
      have h0 : ∀ i < data.length, i ≠ s → depth.getD i 0 = 0 := by
        intro i hi hne
        rw [hgetD i hi, if_neg (fun hc => hne hc.symm)]
      have hmax : maxD depth = 1 := by
        apply le_antisymm
        · apply maxD_le
          intro x hx
          rw [hdep] at hx
          obtain ⟨i, _, hxe⟩ := List.mem_map.mp hx
          rw [← hxe]
          unfold lookupD
          split <;> simp [lookupD]
        · apply le_maxD_of_mem
          rw [← h1]
          have : s < depth.length := by rw [hlen]; exact hs
          rw [List.getD_eq_getElem depth 0 this]
          exact List.getElem_mem this
      have hsad : symbolsAtDepth depth 1 = [s] := by
        unfold symbolsAtDepth
        rw [hlen]
        rw [List.filter_congr (fun i hi => ?_)]
        · exact filter_range_eq_singleton hs
        · have hi' : i < data.length := List.mem_range.mp hi
          rw [hgetD i hi']
          by_cases hsi : s = i
          · simp [hsi]
          · simp [hsi]
      have hseq : canonicalSeq depth = [(s, 1)] := by
        unfold canonicalSeq
        rw [hmax, show List.range 1 = [0] from rfl, List.map_cons, List.map_nil,
          List.flatten_cons, List.flatten_nil, List.append_nil]
        rw [show (0 : Nat) + 1 = 1 from rfl, hsad]
        rfl
      have hentries : huffmanCodeEntries depth = [(s, 1, 0)] := by
        unfold huffmanCodeEntries
        rw [hseq]
        rfl
      refine ⟨h1, h0, hentries, ?_⟩
      unfold ConvertBitDepthsToSymbols
      rw [hentries, getD_map_range _ _ _ (by rw [hlen]; exact hs)]
      simp [lookupD]

/-- Witness for C8 at weights [7]: depth table [1], single code entry
(symbol 0, depth 1, code 0). -/
theorem claim_C8_witness :
    ([1] : List Nat).getD 0 0 = 1 ∧
    (∀ i < ([7] : List Nat).length, i ≠ 0 → ([1] : List Nat).getD i 0 = 0) ∧
    huffmanCodeEntries [1] = [(0, 1, 0)] ∧
    (ConvertBitDepthsToSymbols [1]).getD 0 0 = 0 :=
  claim_C8_single_symbol [7] 15 0 [1] rfl rfl

/-- C2: `CreateHuffmanTree` and `ConvertBitDepthsToSymbols` are
deterministic — identical inputs yield identical outputs — and the merge
queue's extraction step resolves equal-weight ties by preferring the node at
the earliest queue position (the node inserted earlier / with the lower
original index): every extraction returns a node of minimal weight whose
queue position strictly precedes every other position of that minimal
weight. -/
theorem claim_C2_determinism (w1 w2 : List Nat) (t1 t2 : Nat) (d1 d2 : List Nat)
    (hw : w1 = w2) (ht : t1 = t2) (hd : d1 = d2) :
    CreateHuffmanTree w1 t1 = CreateHuffmanTree w2 t2 ∧
    ConvertBitDepthsToSymbols d1 = ConvertBitDepthsToSymbols d2 ∧
    ∀ q (m : Nat × HTree) rest, extractMin q = some (m, rest) →
      (∀ y ∈ q, m.1 ≤ y.1) ∧
      ∃ i, ∃ hi : i < q.length, q.get ⟨i, hi⟩ = m ∧
        ∀ k, ∀ hk : k < q.length, k < i → m.1 < (q.get ⟨k, hk⟩).1 := by
  subst hw ht hd
  exact ⟨rfl, rfl, fun q m rest h => ⟨extractMin_min h, extractMin_first h⟩⟩

/-- Witness for C2: concrete determinism instance, and the tie between the
two weight-1 nodes in a concrete queue resolved toward the earlier one. -/
theorem claim_C2_witness :
    CreateHuffmanTree [1, 1, 2, 5] 15 = CreateHuffmanTree [1, 1, 2, 5] 15 ∧
    ∀ y ∈ [(2, HTree.leaf 0), (1, HTree.leaf 1), (1, HTree.leaf 2)],
      ((1, HTree.leaf 1) : Nat × HTree).1 ≤ y.1 :=
  ⟨(claim_C2_determinism [1, 1, 2, 5] [1, 1, 2, 5] 15 15 [] [] rfl rfl rfl).1,
   ((claim_C2_determinism [1, 1, 2, 5] [1, 1, 2, 5] 15 15 [] [] rfl rfl rfl).2.2
      [(2, HTree.leaf 0), (1, HTree.leaf 1), (1, HTree.leaf 2)]
      (1, HTree.leaf 1) [(2, HTree.leaf 0), (1, HTree.leaf 2)] rfl).1⟩

end ringli
